import Mathlib

/-!
Shallow embedding of `src/direct/src/interval/cMetaInterval.cxx`
(class `CMetaInterval` of the Panda3D interval subsystem): the definition
list, the timeline compiler (`recompute_level` / `do_recompute`), the
bidirectional playback engine and the deferred event queue, together with
theorems settling the frozen claims about this code.

Modelling conventions.
* C++ `double` time values are modelled as rationals (`ℚ`); the quantized
  integer time domain is `Int`.
* A child `CInterval` is an external collaborator; it is represented by the
  data this engine reads from it (`get_duration`, `get_open_ended`), and a
  call `c_interval->set_t(t, event_type)` is recorded on an output `trace`.
* The `nassert` macros return early on failure (their release-build
  behaviour); a failing assertion additionally sets the `assert_failed`
  flag so that "no fatal fault" is an observable property of the model.
* `_active` is a `pset<PlaybackEvent *>` of begin events.  In a compiled
  timeline a begin event is determined by its definition index, so the set
  is modelled as a list of `(time, defIndex)` keys of begin events.
* The recursion of `recompute_level` advances an index into the definition
  list; it is written with an explicit fuel argument, and
  `recompute_level_fuel` below proves that the fuel used by `do_recompute`
  (list length + 1) never runs out.
-/

namespace CMeta

/-- The `DefType` enum of `CMetaInterval::IntervalDef`. -/
inductive DefType
  | DT_push_level
  | DT_pop_level
  | DT_c_interval
  | DT_ext_index
deriving DecidableEq

/-- The `RelativeStart` enum of `CInterval`. -/
inductive RelativeStart
  | RS_previous_end
  | RS_previous_begin
  | RS_level_begin
deriving DecidableEq

/-- The `CInterval::EventType` enum.  `ET_init` models `ET_initialize` and
`ET_reverse_init` models `ET_reverse_initialize` (renamed here). -/
inductive EventType
  | ET_init
  | ET_instant
  | ET_step
  | ET_finalize
  | ET_reverse_init
  | ET_reverse_instant
  | ET_reverse_finalize
deriving DecidableEq

/-- The `PlaybackEventType` enum of `CMetaInterval::PlaybackEvent`. -/
inductive PlaybackEventType
  | PET_begin
  | PET_end
  | PET_instant
deriving DecidableEq

open DefType RelativeStart EventType PlaybackEventType

/-- The face of a child `CInterval` that this engine reads: its duration and
its open-endedness flag (the `CInterval` class itself is outside `src/`). -/
structure CIntervalRef where
  duration : ℚ
  open_ended : Bool
deriving DecidableEq

/-- One entry of the definition list (`CMetaInterval::IntervalDef`). -/
structure IntervalDef where
  type : DefType
  c_interval : Option CIntervalRef
  ext_index : Int
  ext_name : String
  ext_duration : ℚ
  ext_open_ended : Bool
  rel_time : ℚ
  rel_to : RelativeStart
  actual_begin_time : Int
deriving DecidableEq

/-- A default-constructed `IntervalDef()` before its fields are filled in. -/
def default_def : IntervalDef :=
  ⟨DT_pop_level, none, 0, "", 0, false, 0, RS_previous_end, 0⟩

/-- `def._c_interval->get_duration()`; the C++ code never dereferences a null
handle here because `add_c_interval` rejects null handles. -/
def ci_duration (d : IntervalDef) : ℚ :=
  match d.c_interval with
  | some c => c.duration
  | none => 0

/-- `def._c_interval->get_open_ended()`; see `ci_duration` about null. -/
def ci_open_ended (d : IntervalDef) : Bool :=
  match d.c_interval with
  | some c => c.open_ended
  | none => true

/-- One compiled timeline event (`CMetaInterval::PlaybackEvent`).
`begin_time` records the time of the event's `_begin_event` pointer; for a
begin or instant event the pointer is the event itself, and for an end event
it is the matching begin event, whose definition index equals `n`. -/
structure PlaybackEvent where
  time : Int
  n : Nat
  type : PlaybackEventType
  begin_time : Int
deriving DecidableEq

/-- One entry of the deferred event queue (`CMetaInterval::EventQueueEntry`). -/
structure EventQueueEntry where
  n : Nat
  event_type : EventType
  time : Int
deriving DecidableEq

/-- Identity of a begin event held in an active set: its time and its
definition index (pointer identity of the `PlaybackEvent *`). -/
abbrev ActiveKey := Int × Nat

/-- A recorded `set_t` invocation on a child `CInterval`: definition index,
event type, and the (un-quantized) time passed. -/
abbrev Callback := Nat × EventType × ℚ

/-- The state of one `CMetaInterval` instance, together with the observable
output of its callbacks (`trace`) and of its diagnostics (`warning`,
`assert_failed`). -/
structure MetaState where
  defs : List IntervalDef
  events : List PlaybackEvent
  active : List ActiveKey
  event_queue : List EventQueueEntry
  next_event_index : Nat
  curr_t : ℚ
  end_time : Int
  duration : ℚ
  dirty : Bool
  current_nesting_level : Nat
  precision : Int
  trace : List Callback
  warning : Bool
  assert_failed : Bool
deriving DecidableEq

/-- Modelled from the spec: `CInterval::double_to_int_time` (header not under
`src/`) stores a time value as the nearest representable integer at the
configured precision (ticks per unit time): `round (t * prec)`.  It is
written here as `⌊(2·num·prec + den) / (2·den)⌋`, which
`double_to_int_time_eq` proves equal to `round (t * prec)`; this form
evaluates by kernel reduction. -/
def double_to_int_time (prec : Int) (t : ℚ) : Int :=
  ⌊Rat.divInt (2 * t.num * prec + (t.den : Int)) (2 * (t.den : Int))⌋

/-- `double_to_int_time` is rounding to the nearest integer at the given
precision. -/
theorem double_to_int_time_eq (prec : Int) (t : ℚ) :
    double_to_int_time prec t = round (t * (prec : ℚ)) := by
  have hden : ((t.den : ℚ)) ≠ 0 := by
    exact_mod_cast t.den_nz
  have hnum : (t.num : ℚ) = t * (t.den : ℚ) :=
    (div_eq_iff hden).mp (Rat.num_div_den t)
  have h2 : Rat.divInt (2 * t.num * prec + (t.den : Int)) (2 * (t.den : Int)) =
      t * (prec : ℚ) + 1 / 2 := by
    rw [Rat.divInt_eq_div]
    push_cast
    field_simp
    rw [hnum]
    ring
  rw [double_to_int_time, h2, round_eq]

/-- Modelled from the spec: `CInterval::int_to_double_time` (header not under
`src/`), the inverse scaling of `double_to_int_time`: `t / prec`, written
via `Rat.divInt` (see `int_to_double_time_eq`) so that it evaluates by
kernel reduction. -/
def int_to_double_time (prec : Int) (t : Int) : ℚ :=
  Rat.divInt t prec

/-- `int_to_double_time` is division by the precision. -/
theorem int_to_double_time_eq (prec : Int) (t : Int) :
    int_to_double_time prec t = (t : ℚ) / (prec : ℚ) := by
  rw [int_to_double_time, Rat.divInt_eq_div]

/-- Modelled from the spec: `CInterval::mark_dirty` (header not under `src/`)
marks the compiled state dirty so it is lazily recompiled. -/
def mark_dirty (s : MetaState) : MetaState :=
  { s with dirty := true }

/-- A `def._c_interval->set_t(t, event_type)` invocation: the child's own
behaviour is outside this core, so the call is recorded on the trace. -/
def set_t (s : MetaState) (n : Nat) (t : ℚ) (event_type : EventType) : MetaState :=
  { s with trace := s.trace ++ [(n, event_type, t)] }

/-- A fresh `CMetaInterval` (constructor): empty definition list, empty
compiled state, given time precision. -/
def mkMeta (prec : Int) : MetaState :=
  ⟨[], [], [], [], 0, 0, 0, 0, false, 0, prec, [], false, false⟩

/-- `CMetaInterval::push_level`. -/
def push_level (s : MetaState) (rel_time : ℚ) (rel_to : RelativeStart) :
    MetaState × Int :=
  let d := { default_def with
    type := DT_push_level, rel_time := rel_time, rel_to := rel_to }
  let s1 := mark_dirty { s with
    defs := s.defs ++ [d],
    current_nesting_level := s.current_nesting_level + 1 }
  (s1, (s1.defs.length : Int) - 1)

/-- `CMetaInterval::add_c_interval`.  A null interval handle fails the
`nassertr` precondition and returns the sentinel index `-1` without touching
the definition list.  (The `c_interval->_parents` back-reference lives in the
child interval, outside this model.) -/
def add_c_interval (s : MetaState) (c_interval : Option CIntervalRef)
    (rel_time : ℚ) (rel_to : RelativeStart) : MetaState × Int :=
  match c_interval with
  | none => ({ s with assert_failed := true }, -1)
  | some c =>
    let d := { default_def with
      type := DT_c_interval, c_interval := some c,
      rel_time := rel_time, rel_to := rel_to }
    let s1 := mark_dirty { s with defs := s.defs ++ [d] }
    (s1, (s1.defs.length : Int) - 1)

/-- `CMetaInterval::add_ext_index`. -/
def add_ext_index (s : MetaState) (ext_index : Int) (name : String)
    (duration : ℚ) (open_ended : Bool) (rel_time : ℚ)
    (rel_to : RelativeStart) : MetaState × Int :=
  let d := { default_def with
    type := DT_ext_index, ext_index := ext_index, ext_name := name,
    ext_duration := duration, ext_open_ended := open_ended,
    rel_time := rel_time, rel_to := rel_to }
  let s1 := mark_dirty { s with defs := s.defs ++ [d] }
  (s1, (s1.defs.length : Int) - 1)

/-- `CMetaInterval::pop_level`.  Popping with no open level fails the
`nassertr` precondition and returns the sentinel index `-1`. -/
def pop_level (s : MetaState) : MetaState × Int :=
  if s.current_nesting_level > 0 then
    let d := { default_def with type := DT_pop_level }
    let s1 := mark_dirty { s with
      defs := s.defs ++ [d],
      current_nesting_level := s.current_nesting_level - 1 }
    (s1, (s1.defs.length : Int) - 1)
  else
    ({ s with assert_failed := true }, -1)

/-- `CMetaInterval::clear_events`. -/
def clear_events (s : MetaState) : MetaState :=
  { s with events := [], active := [] }

/-- `CMetaInterval::clear_intervals`.  Clearing with a non-empty event queue
fails the `nassertv` precondition and leaves the state untouched.  (The loop
removing this object from each child's `_parents` list acts on the children,
outside this model.) -/
def clear_intervals (s : MetaState) : MetaState :=
  if s.event_queue = [] then
    let s1 := clear_events s
    { s1 with defs := [], current_nesting_level := 0, next_event_index := 0 }
  else
    { s with assert_failed := true }

/-- `CMetaInterval::get_begin_time`. -/
def get_begin_time (prec : Int) (d : IntervalDef)
    (level_begin previous_begin previous_end : Int) : Int :=
  match d.rel_to with
  | RS_previous_end => previous_end + double_to_int_time prec d.rel_time
  | RS_previous_begin => previous_begin + double_to_int_time prec d.rel_time
  | RS_level_begin => level_begin + double_to_int_time prec d.rel_time

/-- Result of `CMetaInterval::recompute_level`: the updated definition list
(with `_actual_begin_time` filled in), the emitted events in emission order,
the returned index, the computed `level_end`, and a flag recording whether
the recursion fuel ran out (it cannot, for the fuel `do_recompute` uses). -/
structure RLevelRes where
  defs : List IntervalDef
  events : List PlaybackEvent
  next : Nat
  level_end : Int
  fuel_out : Bool
deriving DecidableEq

/-- `CMetaInterval::recompute_level`.  The C++ loop "process entries from
`n` until a `DT_pop_level` or the end of the list, recursing on
`DT_push_level`" is written as a tail recursion: the loop state
(`previous_begin`, `previous_end`, `level_end`) is passed along, a fresh
level starts with all three equal to its `level_begin`. -/
def recompute_level (prec : Int) :
    Nat → List IntervalDef → Nat → Int → Int → Int → Int → RLevelRes
  | 0, defs, n, _level_begin, _previous_begin, _previous_end, level_end =>
    ⟨defs, [], n, level_end, true⟩
  | fuel + 1, defs, n, level_begin, previous_begin, previous_end, level_end =>
    if h : n < defs.length then
      let d := defs.get ⟨n, h⟩
      match d.type with
      | DT_pop_level =>
        -- the loop stops; the final pop "begins" at the level end time
        ⟨defs.set n { d with actual_begin_time := level_end }, [], n,
          level_end, false⟩
      | DT_c_interval =>
        let begin_time := get_begin_time prec d level_begin previous_begin previous_end
        let end_time := begin_time + double_to_int_time prec (ci_duration d)
        let evs :=
          if begin_time = end_time then
            [⟨begin_time, n, PET_instant, begin_time⟩]
          else
            [⟨begin_time, n, PET_begin, begin_time⟩,
             ⟨end_time, n, PET_end, begin_time⟩]
        let r := recompute_level prec fuel
          (defs.set n { d with actual_begin_time := begin_time }) (n + 1)
          level_begin begin_time end_time (max level_end end_time)
        ⟨r.defs, evs ++ r.events, r.next, r.level_end, r.fuel_out⟩
      | DT_ext_index =>
        let begin_time := get_begin_time prec d level_begin previous_begin previous_end
        let end_time := begin_time + double_to_int_time prec d.ext_duration
        let evs :=
          if begin_time = end_time then
            [⟨begin_time, n, PET_instant, begin_time⟩]
          else
            [⟨begin_time, n, PET_begin, begin_time⟩,
             ⟨end_time, n, PET_end, begin_time⟩]
        let r := recompute_level prec fuel
          (defs.set n { d with actual_begin_time := begin_time }) (n + 1)
          level_begin begin_time end_time (max level_end end_time)
        ⟨r.defs, evs ++ r.events, r.next, r.level_end, r.fuel_out⟩
      | DT_push_level =>
        let begin_time := get_begin_time prec d level_begin previous_begin previous_end
        let inner := recompute_level prec fuel
          (defs.set n { d with actual_begin_time := begin_time }) (n + 1)
          begin_time begin_time begin_time begin_time
        let r := recompute_level prec fuel inner.defs (inner.next + 1)
          level_begin begin_time inner.level_end (max level_end inner.level_end)
        ⟨r.defs, inner.events ++ r.events, r.next, r.level_end,
          inner.fuel_out || r.fuel_out⟩
    else
      ⟨defs, [], n, level_end, false⟩

/-- Insertion step of the stable sort: a new event goes after every already
placed event whose time is less than or equal to its own. -/
def insertByTime (e : PlaybackEvent) : List PlaybackEvent → List PlaybackEvent
  | [] => [e]
  | x :: xs => if x.time ≤ e.time then x :: insertByTime e xs else e :: x :: xs

/-- The `stable_sort(..., IndirectLess<PlaybackEvent>())` call of
`do_recompute`: a stable sort of the events by quantized time (the
`PlaybackEvent` ordering compares `_time`), written as a stable insertion
sort. -/
def sortEventsByTime (l : List PlaybackEvent) : List PlaybackEvent :=
  l.foldl (fun acc e => insertByTime e acc) []

/-- The events emitted by the compiler walk of `do_recompute`, before the
stable sort. -/
def compile_walk (s : MetaState) : RLevelRes :=
  recompute_level s.precision (s.defs.length + 1) s.defs 0 0 0 0 0

/-- `CMetaInterval::do_recompute`. -/
def do_recompute (s : MetaState) : MetaState :=
  let s1 := clear_events { s with dirty := false }
  let r := compile_walk s1
  { s1 with
    defs := r.defs,
    events := sortEventsByTime r.events,
    end_time := r.level_end,
    duration := int_to_double_time s1.precision r.level_end,
    warning := decide (r.next ≠ s1.defs.length),
    assert_failed := s1.assert_failed || r.fuel_out }

/-- Modelled from the spec: `CInterval::recompute` (header not under `src/`)
rebuilds the compiled state when dirty and is the identity otherwise. -/
def recompute (s : MetaState) : MetaState :=
  if s.dirty then do_recompute s else s

/-- `CMetaInterval::enqueue_event`.  A non-open-ended instant reached with
`is_initial` set is dropped; a C++ interval is invoked synchronously when the
queue is empty; everything else is appended to the queue. -/
def enqueue_event (s : MetaState) (n : Nat) (event_type : EventType)
    (is_initial : Bool) (time : Int) : MetaState :=
  match s.defs.get? n with
  | none => { s with assert_failed := true }
  | some d =>
    match d.type with
    | DT_c_interval =>
      if is_initial = true ∧
          (event_type = ET_instant ∨ event_type = ET_reverse_instant) ∧
          ci_open_ended d = false then
        s
      else if s.event_queue = [] then
        set_t s n (int_to_double_time s.precision time) event_type
      else
        { s with event_queue := s.event_queue ++ [⟨n, event_type, time⟩] }
    | DT_ext_index =>
      if is_initial = true ∧
          (event_type = ET_instant ∨ event_type = ET_reverse_instant) ∧
          d.ext_open_ended = false then
        s
      else
        { s with event_queue := s.event_queue ++ [⟨n, event_type, time⟩] }
    | _ => { s with assert_failed := true }

/-- Erasure from an active set, by begin-event identity. -/
def active_erase (l : List ActiveKey) (k : ActiveKey) : List ActiveKey :=
  l.filter (fun x => decide (x ≠ k))

/-- `CMetaInterval::do_event_forward`. -/
def do_event_forward (s : MetaState) (event : PlaybackEvent)
    (new_active : List ActiveKey) (is_initial : Bool) :
    MetaState × List ActiveKey :=
  match event.type with
  | PET_begin =>
    if event.begin_time ≠ event.time then
      ({ s with assert_failed := true }, new_active)
    else if (event.time, event.n) ∈ s.active then
      ({ s with assert_failed := true }, new_active)
    else if (event.time, event.n) ∈ new_active then
      ({ s with assert_failed := true }, new_active)
    else
      (s, new_active ++ [(event.time, event.n)])
  | PET_end =>
    let bkey : ActiveKey := (event.begin_time, event.n)
    if bkey ∈ new_active then
      (enqueue_event s event.n ET_instant is_initial 0,
        active_erase new_active bkey)
    else if bkey ∈ s.active then
      (enqueue_event { s with active := active_erase s.active bkey }
        event.n ET_finalize is_initial 0, new_active)
    else
      -- erase_count is 0: the event is enqueued and then `nassertv` fires
      ({ enqueue_event s event.n ET_finalize is_initial 0 with
          assert_failed := true }, new_active)
  | PET_instant =>
    if event.begin_time ≠ event.time then
      ({ s with assert_failed := true }, new_active)
    else if (event.time, event.n) ∈ new_active then
      ({ s with assert_failed := true }, new_active)
    else if (event.time, event.n) ∈ s.active then
      ({ s with assert_failed := true }, new_active)
    else
      (enqueue_event s event.n ET_instant is_initial 0, new_active)

/-- `CMetaInterval::do_event_reverse`. -/
def do_event_reverse (s : MetaState) (event : PlaybackEvent)
    (new_active : List ActiveKey) (is_initial : Bool) :
    MetaState × List ActiveKey :=
  match event.type with
  | PET_begin =>
    if event.begin_time ≠ event.time then
      ({ s with assert_failed := true }, new_active)
    else
      let k : ActiveKey := (event.time, event.n)
      if k ∈ new_active then
        (enqueue_event s event.n ET_reverse_instant is_initial 0,
          active_erase new_active k)
      else if k ∈ s.active then
        (enqueue_event { s with active := active_erase s.active k }
          event.n ET_reverse_finalize is_initial 0, new_active)
      else
        ({ enqueue_event s event.n ET_reverse_finalize is_initial 0 with
            assert_failed := true }, new_active)
  | PET_end =>
    let k : ActiveKey := (event.begin_time, event.n)
    if k ∈ new_active then
      ({ s with assert_failed := true }, new_active)
    else
      (s, new_active ++ [k])
  | PET_instant =>
    if event.begin_time ≠ event.time then
      ({ s with assert_failed := true }, new_active)
    else if (event.time, event.n) ∈ s.active then
      ({ s with assert_failed := true }, new_active)
    else if (event.time, event.n) ∈ new_active then
      ({ s with assert_failed := true }, new_active)
    else
      (enqueue_event s event.n ET_reverse_instant is_initial 0, new_active)

/-- `CMetaInterval::finish_events_forward`: step everything still active,
then initialize and fold in everything newly active. -/
def finish_events_forward (s : MetaState) (now : Int)
    (new_active : List ActiveKey) : MetaState :=
  let s1 := s.active.foldl
    (fun acc k => enqueue_event acc k.2 ET_step false (now - k.1)) s
  new_active.foldl
    (fun acc k =>
      let acc1 := enqueue_event acc k.2 ET_init false (now - k.1)
      if k ∈ acc1.active then { acc1 with assert_failed := true }
      else { acc1 with active := acc1.active ++ [k] }) s1

/-- `CMetaInterval::finish_events_reverse`. -/
def finish_events_reverse (s : MetaState) (now : Int)
    (new_active : List ActiveKey) : MetaState :=
  let s1 := s.active.foldl
    (fun acc k => enqueue_event acc k.2 ET_step false (now - k.1)) s
  new_active.foldl
    (fun acc k =>
      let acc1 := enqueue_event acc k.2 ET_reverse_init false (now - k.1)
      if k ∈ acc1.active then { acc1 with assert_failed := true }
      else { acc1 with active := acc1.active ++ [k] }) s1

/-- The forward scan loop shared by `initialize`, `step` and `finalize`: the
loop body never modifies `_events` or `_next_event_index`, so it is iterated
over the suffix of the event list starting at the cursor; the returned `Nat`
is how many events were consumed.  When `bounded` is false the scan takes
every remaining event (the `finalize` loop). -/
def scan_forward (s : MetaState) (l : List PlaybackEvent) (bounded : Bool)
    (now : Int) (new_active : List ActiveKey) (is_initial : Bool) :
    MetaState × List ActiveKey × Nat :=
  match l with
  | [] => (s, new_active, 0)
  | e :: rest =>
    if bounded = true ∧ ¬ e.time ≤ now then
      (s, new_active, 0)
    else
      let p := do_event_forward s e new_active is_initial
      let q := scan_forward p.1 rest bounded now p.2 is_initial
      (q.1, q.2.1, q.2.2 + 1)

/-- The backward scan loop shared by `step`, `reverse_initialize` and
`reverse_finalize`, iterated over the reversed prefix of the event list
before the cursor. -/
def scan_reverse (s : MetaState) (l : List PlaybackEvent) (bounded : Bool)
    (now : Int) (new_active : List ActiveKey) (is_initial : Bool) :
    MetaState × List ActiveKey × Nat :=
  match l with
  | [] => (s, new_active, 0)
  | e :: rest =>
    if bounded = true ∧ ¬ now < e.time then
      (s, new_active, 0)
    else
      let p := do_event_reverse s e new_active is_initial
      let q := scan_reverse p.1 rest bounded now p.2 is_initial
      (q.1, q.2.1, q.2.2 + 1)

/-- `CMetaInterval::initialize` (renamed; `initialize` is reserved in this
development's tooling). -/
def initializeAt (s : MetaState) (t : ℚ) : MetaState :=
  let s1 := recompute s
  let s2 := { s1 with next_event_index := 0, active := [] }
  let now := double_to_int_time s2.precision t
  let r := scan_forward s2 s2.events true now [] true
  let s3 := { r.1 with next_event_index := r.2.2 }
  let s4 := finish_events_forward s3 now r.2.1
  { s4 with curr_t := t }

/-- `CMetaInterval::instant`'s loop: invoke `ET_instant` (or, reversed,
`ET_reverse_instant`) for every event that is not a begin event. -/
def instant_fold (s : MetaState) (l : List PlaybackEvent)
    (event_type : EventType) : MetaState :=
  match l with
  | [] => s
  | e :: rest =>
    instant_fold
      (if e.type ≠ PET_begin then enqueue_event s e.n event_type true 0 else s)
      rest event_type

/-- `CMetaInterval::instant`. -/
def instant (s : MetaState) : MetaState :=
  let s1 := recompute s
  let s2 := { s1 with active := [] }
  let s3 := instant_fold s2 s2.events ET_instant
  let s4 := { s3 with next_event_index := s3.events.length }
  -- _curr_t = get_duration(): recompute (a no-op here) and read _duration
  let s5 := recompute s4
  { s5 with curr_t := s5.duration }

/-- `CMetaInterval::step`. -/
def step (s : MetaState) (t : ℚ) : MetaState :=
  let now := double_to_int_time s.precision t
  let fwd : Bool :=
    match s.events.get? s.next_event_index with
    | some e => decide (e.time ≤ now)
    | none => false
  let s' :=
    if fwd = true then
      let r := scan_forward s (s.events.drop s.next_event_index) true now [] false
      let s2 := { r.1 with next_event_index := s.next_event_index + r.2.2 }
      finish_events_forward s2 now r.2.1
    else
      let r := scan_reverse s ((s.events.take s.next_event_index).reverse)
        true now [] false
      let s2 := { r.1 with next_event_index := s.next_event_index - r.2.2 }
      finish_events_reverse s2 now r.2.1
  { s' with curr_t := t }

/-- `CMetaInterval::finalize`. -/
def finalize (s : MetaState) : MetaState :=
  let r := scan_forward s (s.events.drop s.next_event_index) false 0 [] false
  let s2 := { r.1 with next_event_index := r.1.events.length }
  -- _curr_t = get_duration()
  let s3 := recompute s2
  let s4 := { s3 with curr_t := s3.duration }
  finish_events_forward s4 (double_to_int_time s4.precision s4.curr_t) r.2.1

/-- `CMetaInterval::reverse_initialize` (renamed like `initializeAt`). -/
def reverseInitializeAt (s : MetaState) (t : ℚ) : MetaState :=
  let s1 := recompute s
  let s2 := { s1 with next_event_index := s1.events.length, active := [] }
  let now := double_to_int_time s2.precision t
  let r := scan_reverse s2 s2.events.reverse true now [] true
  let s3 := { r.1 with next_event_index := s2.events.length - r.2.2 }
  let s4 := finish_events_reverse s3 now r.2.1
  { s4 with curr_t := t }

/-- `CMetaInterval::reverse_instant`. -/
def reverse_instant (s : MetaState) : MetaState :=
  let s1 := recompute s
  let s2 := { s1 with active := [] }
  let s3 := instant_fold s2 s2.events.reverse ET_reverse_instant
  { s3 with next_event_index := 0, curr_t := 0 }

/-- `CMetaInterval::reverse_finalize`. -/
def reverse_finalize (s : MetaState) : MetaState :=
  let r := scan_reverse s ((s.events.take s.next_event_index).reverse)
    false 0 [] false
  let s2 := { r.1 with next_event_index := 0 }
  let s3 := finish_events_reverse s2 0 r.2.1
  { s3 with curr_t := 0 }

/-- `CMetaInterval::service_event_queue`'s loop, on the explicit queue. -/
def service_go (s : MetaState) : List EventQueueEntry → MetaState × Bool
  | [] => ({ s with event_queue := [] }, false)
  | entry :: rest =>
    match s.defs.get? entry.n with
    | none => ({ s with event_queue := entry :: rest, assert_failed := true },
        false)
    | some d =>
      match d.type with
      | DT_c_interval =>
        let s1 := set_t s entry.n (int_to_double_time s.precision entry.time)
          entry.event_type
        service_go { s1 with event_queue := rest } rest
      | DT_ext_index =>
        ({ s with event_queue := entry :: rest }, true)
      | _ => ({ s with event_queue := entry :: rest, assert_failed := true },
          false)

/-- `CMetaInterval::service_event_queue`. -/
def service_event_queue (s : MetaState) : MetaState × Bool :=
  service_go s s.event_queue

/-! ### Basic shape lemmas -/

/-- Every call to `enqueue_event` either does nothing (a suppressed instant),
fails an assertion, invokes the child synchronously (trace append), or
appends one entry of the requested event type to the queue. -/
theorem enqueue_event_cases (s : MetaState) (n : Nat) (et : EventType)
    (i : Bool) (T : Int) :
    enqueue_event s n et i T = s ∨
    enqueue_event s n et i T = { s with assert_failed := true } ∨
    enqueue_event s n et i T =
      { s with trace := s.trace ++ [(n, et, int_to_double_time s.precision T)] } ∨
    enqueue_event s n et i T =
      { s with event_queue := s.event_queue ++ [⟨n, et, T⟩] } := by
  unfold enqueue_event
  cases h : s.defs.get? n with
  | none => simp [h]
  | some d =>
    simp only [h]
    cases htype : d.type <;> simp only [htype] <;>
      first
      | (split_ifs <;> simp [set_t])
      | simp [set_t]

/-- Fields of the state that `enqueue_event` never modifies. -/
theorem enqueue_event_keeps (s : MetaState) (n : Nat) (et : EventType)
    (i : Bool) (T : Int) :
    (enqueue_event s n et i T).defs = s.defs ∧
    (enqueue_event s n et i T).events = s.events ∧
    (enqueue_event s n et i T).active = s.active ∧
    (enqueue_event s n et i T).next_event_index = s.next_event_index ∧
    (enqueue_event s n et i T).curr_t = s.curr_t ∧
    (enqueue_event s n et i T).precision = s.precision ∧
    (enqueue_event s n et i T).dirty = s.dirty := by
  rcases enqueue_event_cases s n et i T with h | h | h | h <;> rw [h]
  all_goals exact ⟨rfl, rfl, rfl, rfl, rfl, rfl, rfl⟩

/-! ### Claim C9: caller-contract violations are rejected at the call site -/

/-- Claim C9: adding a native action with a null handle returns the sentinel
index `-1` and leaves the definition list unchanged; popping a group with no
open group returns `-1` and leaves the definition list and the nesting level
unchanged; clearing while the deferred queue is non-empty is rejected as a
precondition failure, leaving the definition list, the compiled events and
the queue untouched. -/
theorem c9_contract_violations (s : MetaState) (rt : ℚ) (rto : RelativeStart) :
    ((add_c_interval s none rt rto).2 = -1 ∧
      (add_c_interval s none rt rto).1.defs = s.defs) ∧
    (s.current_nesting_level = 0 →
      (pop_level s).2 = -1 ∧
      (pop_level s).1.defs = s.defs ∧
      (pop_level s).1.current_nesting_level = s.current_nesting_level) ∧
    (s.event_queue ≠ [] →
      (clear_intervals s).defs = s.defs ∧
      (clear_intervals s).events = s.events ∧
      (clear_intervals s).event_queue = s.event_queue ∧
      (clear_intervals s).assert_failed = true) := by
  refine ⟨⟨rfl, rfl⟩, ?_, ?_⟩
  · intro h0
    simp [pop_level, h0]
  · intro hq
    simp [clear_intervals, hq]

/-- A concrete state with no open group and a non-empty deferred queue,
used to witness claim C9. -/
def c9s : MetaState :=
  { mkMeta 1 with event_queue := [⟨0, ET_step, 0⟩] }

/-- Witness for claim C9 at a concrete state. -/
theorem c9_witness :
    c9s.current_nesting_level = 0 ∧ c9s.event_queue ≠ [] ∧
    ((add_c_interval c9s none 0 RS_previous_end).2 = -1 ∧
      (pop_level c9s).2 = -1 ∧
      (clear_intervals c9s).event_queue = c9s.event_queue ∧
      (clear_intervals c9s).assert_failed = true) := by
  have h := c9_contract_violations c9s 0 RS_previous_end
  exact ⟨rfl, by decide, h.1.1, (h.2.1 rfl).1,
    ((h.2.2 (by decide)).2.2).1, ((h.2.2 (by decide)).2.2).2⟩

/-! ### Claim C5: dispatch of a native-action callback -/

/-- Claim C5: a callback dispatched via `enqueue_event` to a native
(C++) action that is not suppressed is invoked immediately and synchronously
when the deferred queue is empty (one trace entry, nothing enqueued), and is
appended to the back of the deferred queue otherwise, preserving FIFO order
behind any pending external entries. -/
theorem c5_native_dispatch (s : MetaState) (n : Nat) (d : IntervalDef)
    (et : EventType) (i : Bool) (T : Int)
    (hd : s.defs.get? n = some d)
    (htype : d.type = DT_c_interval)
    (hsup : ¬ (i = true ∧ (et = ET_instant ∨ et = ET_reverse_instant) ∧
      ci_open_ended d = false)) :
    (s.event_queue = [] →
      enqueue_event s n et i T =
        { s with trace :=
            s.trace ++ [(n, et, int_to_double_time s.precision T)] }) ∧
    (s.event_queue ≠ [] →
      enqueue_event s n et i T =
        { s with event_queue := s.event_queue ++ [⟨n, et, T⟩] }) := by
  constructor
  · intro hq
    unfold enqueue_event
    simp only [hd, htype]
    rw [if_neg hsup, if_pos hq]
    rfl
  · intro hq
    unfold enqueue_event
    simp only [hd, htype]
    rw [if_neg hsup, if_neg hq]

/-- A concrete state used to witness claim C5: definition 0 is a native
action, definition 1 is an external action, and the queue holds a pending
external entry. -/
def c5def : IntervalDef :=
  { default_def with type := DT_c_interval, c_interval := some ⟨2, true⟩ }

def c5s : MetaState :=
  { mkMeta 1 with
    defs := [c5def, { default_def with type := DT_ext_index, ext_open_ended := true }],
    event_queue := [⟨1, ET_init, 0⟩] }

/-- Witness for claim C5: with the queue empty the native callback is traced
synchronously; with a pending external entry it is appended behind it. -/
theorem c5_witness :
    (enqueue_event { c5s with event_queue := [] } 0 ET_finalize false 0 =
      { c5s with event_queue := [], trace := [(0, ET_finalize, (0 : ℚ))] }) ∧
    (enqueue_event c5s 0 ET_finalize false 0 =
      { c5s with event_queue := [⟨1, ET_init, 0⟩, ⟨0, ET_finalize, 0⟩] }) := by
  constructor
  · have h := (c5_native_dispatch { c5s with event_queue := [] } 0 c5def
      ET_finalize false 0 (by decide) (by decide) (by decide)).1 (by decide)
    rw [h]
    decide
  · have h := (c5_native_dispatch c5s 0 c5def
      ET_finalize false 0 (by decide) (by decide) (by decide)).2 (by decide)
    rw [h]
    decide

/-! ### Claim C4: `service_event_queue` -/

/-- The queue entry at hand targets a native (C++) action. -/
def entry_native (defs : List IntervalDef) (e : EventQueueEntry) : Bool :=
  match defs.get? e.n with
  | some d => decide (d.type = DT_c_interval)
  | none => false

/-- The queue entry at hand targets an external action. -/
def entry_external (defs : List IntervalDef) (e : EventQueueEntry) : Bool :=
  match defs.get? e.n with
  | some d => decide (d.type = DT_ext_index)
  | none => false

/-- The synchronous invocation a queue entry produces when serviced. -/
def invoke_entry (prec : Int) (e : EventQueueEntry) : Callback :=
  (e.n, e.event_type, int_to_double_time prec e.time)

theorem service_go_spec :
    ∀ (q : List EventQueueEntry) (s : MetaState),
    (∀ e ∈ q, entry_native s.defs e = true ∨ entry_external s.defs e = true) →
    (service_go s q).1.event_queue = q.dropWhile (entry_native s.defs) ∧
    (service_go s q).1.trace =
      s.trace ++ (q.takeWhile (entry_native s.defs)).map (invoke_entry s.precision) ∧
    ((service_go s q).2 = true ↔ q.dropWhile (entry_native s.defs) ≠ []) ∧
    (service_go s q).1.defs = s.defs ∧
    (service_go s q).1.active = s.active := by
  intro q
  induction q with
  | nil => intro s _; simp [service_go]
  | cons e rest ih =>
    intro s hv
    rcases hv e (List.mem_cons_self e rest) with hnat | hext
    · -- a native entry at the head: invoked synchronously, then popped
      unfold entry_native at hnat
      rcases hn : s.defs.get? e.n with _ | d
      · rw [hn] at hnat; exact absurd hnat (by simp)
      · rw [hn] at hnat
        have htype : d.type = DT_c_interval := of_decide_eq_true hnat
        have hstep : service_go s (e :: rest) =
            service_go { set_t s e.n (int_to_double_time s.precision e.time)
              e.event_type with event_queue := rest } rest := by
          simp only [service_go, hn, htype]
        have hnat' : entry_native s.defs e = true := by
          unfold entry_native; rw [hn]; simpa using htype
        set s' : MetaState :=
          { set_t s e.n (int_to_double_time s.precision e.time) e.event_type with
            event_queue := rest } with hs'
        have hdefs : s'.defs = s.defs := rfl
        have hprec : s'.precision = s.precision := rfl
        have htr : s'.trace = s.trace ++ [invoke_entry s.precision e] := rfl
        have hv' : ∀ x ∈ rest, entry_native s'.defs x = true ∨
            entry_external s'.defs x = true := by
          intro x hx
          rw [hdefs]
          exact hv x (List.mem_cons_of_mem _ hx)
        have h := ih s' hv'
        rw [hstep]
        rw [hdefs, hprec, htr] at h
        refine ⟨?_, ?_, ?_, h.2.2.2.1, h.2.2.2.2⟩
        · rw [h.1, List.dropWhile_cons_of_pos hnat']
        · rw [h.2.1, List.takeWhile_cons_of_pos hnat']
          simp
        · rw [h.2.2.1, List.dropWhile_cons_of_pos hnat']
    · -- an external entry at the head: left in place, "pending" returned
      unfold entry_external at hext
      rcases hn : s.defs.get? e.n with _ | d
      · rw [hn] at hext; exact absurd hext (by simp)
      · rw [hn] at hext
        have htype : d.type = DT_ext_index := of_decide_eq_true hext
        have hnat' : entry_native s.defs e = false := by
          unfold entry_native
          rw [hn]
          simp [htype]
        have hstep : service_go s (e :: rest) =
            ({ s with event_queue := e :: rest }, true) := by
          simp only [service_go, hn, htype]
        rw [hstep, List.dropWhile_cons_of_neg (by simp [hnat']),
          List.takeWhile_cons_of_neg (by simp [hnat'])]
        simp

/-- Claim C4: `service_event_queue` pops and synchronously invokes every
native entry at the head of the queue in FIFO order; it stops (without
popping) at the first external entry and reports `true` (pending); if the
queue drains completely it reports `false` (empty).  The definition list and
the active set are untouched. -/
theorem c4_service_queue (s : MetaState)
    (hv : ∀ e ∈ s.event_queue, entry_native s.defs e = true ∨
      entry_external s.defs e = true) :
    (service_event_queue s).1.event_queue =
      s.event_queue.dropWhile (entry_native s.defs) ∧
    (service_event_queue s).1.trace =
      s.trace ++ (s.event_queue.takeWhile (entry_native s.defs)).map
        (invoke_entry s.precision) ∧
    ((service_event_queue s).2 = true ↔
      s.event_queue.dropWhile (entry_native s.defs) ≠ []) ∧
    (service_event_queue s).1.defs = s.defs ∧
    (service_event_queue s).1.active = s.active :=
  service_go_spec s.event_queue s hv

/-- A concrete state used to witness claim C4: definition 0 is native,
definition 1 external; the queue holds a native entry, then an external
entry, then another native entry. -/
def c4s : MetaState :=
  { c5s with event_queue :=
      [⟨0, ET_step, 1⟩, ⟨1, ET_init, 0⟩, ⟨0, ET_finalize, 2⟩] }

/-- Witness for claim C4: the head native entry is invoked and popped, the
external entry stays at the head, the trailing native entry is untouched,
and the call reports pending work. -/
theorem c4_witness :
    (service_event_queue c4s).1.event_queue =
      [⟨1, ET_init, 0⟩, ⟨0, ET_finalize, 2⟩] ∧
    (service_event_queue c4s).1.trace = [(0, ET_step, Rat.divInt 1 1)] ∧
    (service_event_queue c4s).2 = true := by
  have h := c4_service_queue c4s (by decide)
  refine ⟨?_, ?_, ?_⟩
  · rw [h.1]; decide
  · rw [h.2.1]; decide
  · exact h.2.2.1.mpr (by decide)

/-! ### Compiler-walk lemmas -/

theorem recompute_level_next_ge (prec : Int) :
    ∀ (fuel : Nat) (defs : List IntervalDef) (n : Nat) (lb pb pe le : Int),
    n ≤ (recompute_level prec fuel defs n lb pb pe le).next := by
  intro fuel
  induction fuel with
  | zero => intro defs n lb pb pe le; exact le_refl n
  | succ fuel ih =>
    intro defs n lb pb pe le
    unfold recompute_level
    by_cases h : n < defs.length
    · simp only [dif_pos h]
      rcases htype : (defs.get ⟨n, h⟩).type <;> simp only [htype]
      · -- push
        exact le_trans (Nat.le_succ n) (le_trans
          (le_trans (ih _ _ _ _ _ _) (Nat.le_succ _)) (ih _ _ _ _ _ _))
      · -- pop
        exact le_refl n
      · -- c_interval
        exact le_trans (Nat.le_succ n) (ih _ _ _ _ _ _)
      · -- ext_index
        exact le_trans (Nat.le_succ n) (ih _ _ _ _ _ _)
    · simp only [dif_neg h]
      exact le_refl n

/-- Every event emitted by `recompute_level` starting at index `n` refers to
a definition index in `[n, next)`. -/
theorem recompute_level_bounds (prec : Int) :
    ∀ (fuel : Nat) (defs : List IntervalDef) (n : Nat) (lb pb pe le : Int),
    ∀ e ∈ (recompute_level prec fuel defs n lb pb pe le).events,
      n ≤ e.n ∧ e.n < (recompute_level prec fuel defs n lb pb pe le).next := by
  intro fuel
  induction fuel with
  | zero => intro defs n lb pb pe le e he; exact absurd he (by simp [recompute_level])
  | succ fuel ih =>
    intro defs n lb pb pe le e he
    rw [recompute_level] at he ⊢
    by_cases h : n < defs.length
    · simp only [dif_pos h] at he ⊢
      rcases htype : (defs.get ⟨n, h⟩).type <;> simp only [htype] at he ⊢
      · -- push: events come from the inner level or the continuation
        rcases List.mem_append.mp he with hi | hc
        · have hb := ih _ _ _ _ _ _ e hi
          exact ⟨le_trans (Nat.le_succ n) hb.1,
            lt_of_lt_of_le (Nat.lt_succ_of_lt hb.2)
              (recompute_level_next_ge prec fuel _ _ _ _ _ _)⟩
        · have hb := ih _ _ _ _ _ _ e hc
          exact ⟨le_trans (Nat.le_succ n) (le_trans (le_trans
            (recompute_level_next_ge prec fuel _ _ _ _ _ _) (Nat.le_succ _))
            hb.1), hb.2⟩
      · -- pop: no events
        exact absurd he (by simp)
      · -- c_interval: the event is one of the emitted pair, or recursive
        rcases List.mem_append.mp he with hi | hc
        · have hn : e.n = n := by
            split at hi
            · rw [List.mem_singleton.mp hi]
            · simp only [List.mem_cons, List.mem_singleton,
                List.not_mem_nil, or_false] at hi
              rcases hi with hi | hi
              · rw [hi]
              · rw [hi]
          rw [hn]
          exact ⟨le_refl n, lt_of_lt_of_le (Nat.lt_succ_self n)
            (recompute_level_next_ge prec fuel _ _ _ _ _ _)⟩
        · have hb := ih _ _ _ _ _ _ e hc
          exact ⟨le_trans (Nat.le_succ n) hb.1, hb.2⟩
      · -- ext_index: same shape as c_interval
        rcases List.mem_append.mp he with hi | hc
        · have hn : e.n = n := by
            split at hi
            · rw [List.mem_singleton.mp hi]
            · simp only [List.mem_cons, List.mem_singleton,
                List.not_mem_nil, or_false] at hi
              rcases hi with hi | hi
              · rw [hi]
              · rw [hi]
          rw [hn]
          exact ⟨le_refl n, lt_of_lt_of_le (Nat.lt_succ_self n)
            (recompute_level_next_ge prec fuel _ _ _ _ _ _)⟩
        · have hb := ih _ _ _ _ _ _ e hc
          exact ⟨le_trans (Nat.le_succ n) hb.1, hb.2⟩
    · simp only [dif_neg h] at he
      exact absurd he (by simp)

/-- Events are emitted by the compiler walk in declaration order: their
definition indices are nondecreasing along the emitted list. -/
theorem recompute_level_events_pairwise (prec : Int) :
    ∀ (fuel : Nat) (defs : List IntervalDef) (n : Nat) (lb pb pe le : Int),
    ((recompute_level prec fuel defs n lb pb pe le).events).Pairwise
      (fun a b => a.n ≤ b.n) := by
  intro fuel
  induction fuel with
  | zero => intro defs n lb pb pe le; simp [recompute_level]
  | succ fuel ih =>
    intro defs n lb pb pe le
    rw [recompute_level]
    by_cases h : n < defs.length
    · simp only [dif_pos h]
      rcases htype : (defs.get ⟨n, h⟩).type <;> simp only [htype]
      · -- push
        rw [List.pairwise_append]
        refine ⟨ih _ _ _ _ _ _, ih _ _ _ _ _ _, ?_⟩
        intro a ha b hb
        have hba := (recompute_level_bounds prec fuel _ _ _ _ _ _ a ha).2
        have hbb := (recompute_level_bounds prec fuel _ _ _ _ _ _ b hb).1
        exact le_trans (le_of_lt hba) (le_trans (Nat.le_succ _) hbb)
      · -- pop
        simp
      · -- c_interval
        rw [List.pairwise_append]
        refine ⟨?_, ih _ _ _ _ _ _, ?_⟩
        · split <;> simp
        · intro a ha b hb
          have hbb := (recompute_level_bounds prec fuel _ _ _ _ _ _ b hb).1
          have han : a.n = n := by
            split at ha
            · rw [List.mem_singleton.mp ha]
            · simp only [List.mem_cons, List.mem_singleton,
                List.not_mem_nil, or_false] at ha
              rcases ha with ha | ha
              · rw [ha]
              · rw [ha]
          rw [han]
          exact le_trans (Nat.le_succ n) hbb
      · -- ext_index
        rw [List.pairwise_append]
        refine ⟨?_, ih _ _ _ _ _ _, ?_⟩
        · split <;> simp
        · intro a ha b hb
          have hbb := (recompute_level_bounds prec fuel _ _ _ _ _ _ b hb).1
          have han : a.n = n := by
            split at ha
            · rw [List.mem_singleton.mp ha]
            · simp only [List.mem_cons, List.mem_singleton,
                List.not_mem_nil, or_false] at ha
              rcases ha with ha | ha
              · rw [ha]
              · rw [ha]
          rw [han]
          exact le_trans (Nat.le_succ n) hbb
    · simp [dif_neg h]

/-! ### Stable-sort lemmas -/

theorem insertByTime_perm (e : PlaybackEvent) (l : List PlaybackEvent) :
    List.Perm (insertByTime e l) (e :: l) := by
  induction l with
  | nil => exact List.Perm.refl _
  | cons x xs ih =>
    rw [insertByTime]
    split
    · exact List.Perm.trans (List.Perm.cons x ih) (List.Perm.swap e x xs)
    · exact List.Perm.refl _

theorem sortEventsByTime_perm (l : List PlaybackEvent) :
    List.Perm (sortEventsByTime l) l := by
  have haux : ∀ (l acc : List PlaybackEvent),
      List.Perm (l.foldl (fun acc e => insertByTime e acc) acc) (acc ++ l) := by
    intro l
    induction l with
    | nil => intro acc; simp
    | cons e rest ih =>
      intro acc
      rw [List.foldl_cons]
      refine List.Perm.trans (ih (insertByTime e acc)) ?_
      have h1 : List.Perm (insertByTime e acc ++ rest) ((e :: acc) ++ rest) :=
        (insertByTime_perm e acc).append_right rest
      refine List.Perm.trans h1 ?_
      have : (e :: acc) ++ rest = e :: (acc ++ rest) := rfl
      rw [this]
      exact (List.perm_middle).symm
  have := haux l []
  simpa [sortEventsByTime] using this

theorem insertByTime_pairwise (e : PlaybackEvent) (l : List PlaybackEvent)
    (h : l.Pairwise (fun a b => a.time ≤ b.time)) :
    (insertByTime e l).Pairwise (fun a b => a.time ≤ b.time) := by
  induction l with
  | nil => simp [insertByTime]
  | cons x xs ih =>
    rw [insertByTime]
    rcases List.pairwise_cons.mp h with ⟨hx, hxs⟩
    split
    · rw [List.pairwise_cons]
      refine ⟨?_, ih hxs⟩
      intro b hb
      rcases List.mem_cons.mp ((insertByTime_perm e xs).mem_iff.mp hb) with hb | hb
      · rw [hb]; assumption
      · exact hx b hb
    · rw [List.pairwise_cons]
      refine ⟨?_, h⟩
      intro b hb
      rcases List.mem_cons.mp hb with hb | hb
      · rw [hb]; omega
      · exact le_trans (by omega) (hx b hb)

theorem sortEventsByTime_pairwise (l : List PlaybackEvent) :
    (sortEventsByTime l).Pairwise (fun a b => a.time ≤ b.time) := by
  have haux : ∀ (l acc : List PlaybackEvent),
      acc.Pairwise (fun a b => a.time ≤ b.time) →
      (l.foldl (fun acc e => insertByTime e acc) acc).Pairwise
        (fun a b => a.time ≤ b.time) := by
    intro l
    induction l with
    | nil => intro acc hacc; simpa using hacc
    | cons e rest ih =>
      intro acc hacc
      rw [List.foldl_cons]
      exact ih _ (insertByTime_pairwise e acc hacc)
  exact haux l [] (by simp)

/-- Inserting into a sorted list places the new event after every event of
its own time, so filtering any fixed time commutes with insertion. -/
theorem insertByTime_filter_time (e : PlaybackEvent) (l : List PlaybackEvent)
    (h : l.Pairwise (fun a b => a.time ≤ b.time)) (T : Int) :
    (insertByTime e l).filter (fun x => x.time == T) =
      l.filter (fun x => x.time == T) ++
        (if e.time = T then [e] else []) := by
  induction l with
  | nil =>
    by_cases hT : e.time = T
    · rw [if_pos hT]
      show List.filter (fun x => x.time == T) [e] = [] ++ [e]
      rw [List.filter_cons_of_pos (by simpa using hT)]
      simp
    · rw [if_neg hT]
      show List.filter (fun x => x.time == T) [e] = [] ++ []
      rw [List.filter_cons_of_neg (by simpa using hT)]
      simp
  | cons x xs ih =>
    rw [insertByTime]
    rcases List.pairwise_cons.mp h with ⟨hx, hxs⟩
    split
    · rw [List.filter_cons, List.filter_cons]
      split
      · rw [ih hxs]
        simp
      · exact ih hxs
    · -- e goes in front: x and everything after have strictly larger times
      rename_i hlt
      have hxgt : e.time < x.time := by omega
      by_cases hT : e.time = T
      · have hfx : (x :: xs).filter (fun x => x.time == T) = [] := by
          rw [List.filter_eq_nil_iff]
          intro a ha
          rcases List.mem_cons.mp ha with ha | ha
          · rw [ha]
            simp only [beq_iff_eq]
            omega
          · have := hx a ha
            simp only [beq_iff_eq]
            omega
        rw [List.filter_cons_of_pos (by simpa using hT), hfx]
        simp [hT]
      · rw [List.filter_cons_of_neg (by simpa using hT)]
        simp [hT]
  
/-- Stability of the sort: filtering the sorted list to the events of any
one time yields exactly the (contiguous) sequence those events formed in
the emitted order. -/
theorem sortEventsByTime_filter_time (l : List PlaybackEvent) (T : Int) :
    (sortEventsByTime l).filter (fun x => x.time == T) =
      l.filter (fun x => x.time == T) := by
  have haux : ∀ (l acc : List PlaybackEvent),
      acc.Pairwise (fun a b => a.time ≤ b.time) →
      (l.foldl (fun acc e => insertByTime e acc) acc).filter
          (fun x => x.time == T) =
        acc.filter (fun x => x.time == T) ++ l.filter (fun x => x.time == T) := by
    intro l
    induction l with
    | nil => intro acc hacc; simp
    | cons e rest ih =>
      intro acc hacc
      rw [List.foldl_cons, ih _ (insertByTime_pairwise e acc hacc),
        insertByTime_filter_time e acc hacc T]
      by_cases hT : e.time = T
      · rw [List.filter_cons_of_pos (by simpa using hT), if_pos hT]
        simp
      · rw [List.filter_cons_of_neg (by simpa using hT), if_neg hT]
        simp
  have := haux l [] (by simp)
  simpa [sortEventsByTime] using this

/-! ### Claim C7: compiled event ordering -/

/-- Claim C7: after compilation the events list is sorted by nondecreasing
quantized time; events of equal time keep exactly the order in which the
compiler emitted them (stable sort), and the emission order follows
declaration order (nondecreasing definition index). -/
theorem c7_event_ordering (s : MetaState) :
    ((do_recompute s).events).Pairwise (fun a b => a.time ≤ b.time) ∧
    (∀ T : Int, ((do_recompute s).events).filter (fun e => e.time == T) =
      ((compile_walk s).events).filter (fun e => e.time == T)) ∧
    ((compile_walk s).events).Pairwise (fun a b => a.n ≤ b.n) := by
  refine ⟨?_, ?_, ?_⟩
  · exact sortEventsByTime_pairwise _
  · intro T
    exact sortEventsByTime_filter_time _ T
  · exact recompute_level_events_pairwise _ _ _ _ _ _ _ _

/-! ### Claim C10: playback never removes queue entries -/

/-- `b`'s deferred queue extends `a`'s: entries are only ever appended. -/
def QExt (a b : MetaState) : Prop :=
  ∃ ex, b.event_queue = a.event_queue ++ ex

theorem qext_refl (a : MetaState) : QExt a a :=
  ⟨[], by simp⟩

theorem qext_of_eq {a b : MetaState} (h : b.event_queue = a.event_queue) :
    QExt a b :=
  ⟨[], by simp [h]⟩

theorem qext_trans {a b c : MetaState} (h1 : QExt a b) (h2 : QExt b c) :
    QExt a c := by
  rcases h1 with ⟨x, hx⟩
  rcases h2 with ⟨y, hy⟩
  exact ⟨x ++ y, by rw [hy, hx, List.append_assoc]⟩

theorem qext_enqueue (s : MetaState) (n : Nat) (et : EventType) (i : Bool)
    (T : Int) : QExt s (enqueue_event s n et i T) := by
  rcases enqueue_event_cases s n et i T with h | h | h | h <;> rw [h]
  · exact qext_refl s
  · exact qext_of_eq rfl
  · exact qext_of_eq rfl
  · exact ⟨[⟨n, et, T⟩], rfl⟩

theorem qext_do_event_forward (s : MetaState) (e : PlaybackEvent)
    (na : List ActiveKey) (i : Bool) :
    QExt s (do_event_forward s e na i).1 := by
  rcases e with ⟨tm, n, ty, bt⟩
  rcases ty <;> simp only [do_event_forward] <;> split_ifs
  all_goals first
    | exact qext_of_eq rfl
    | exact qext_enqueue _ _ _ _ _

theorem qext_do_event_reverse (s : MetaState) (e : PlaybackEvent)
    (na : List ActiveKey) (i : Bool) :
    QExt s (do_event_reverse s e na i).1 := by
  rcases e with ⟨tm, n, ty, bt⟩
  rcases ty <;> simp only [do_event_reverse] <;> split_ifs
  all_goals first
    | exact qext_of_eq rfl
    | exact qext_enqueue _ _ _ _ _

theorem qext_scan_forward (l : List PlaybackEvent) :
    ∀ (s : MetaState) (b : Bool) (now : Int) (na : List ActiveKey) (i : Bool),
    QExt s (scan_forward s l b now na i).1 := by
  induction l with
  | nil => intro s b now na i; exact qext_refl s
  | cons e rest ih =>
    intro s b now na i
    rw [scan_forward]
    split
    · exact qext_refl s
    · exact qext_trans (qext_do_event_forward s e na i) (ih _ _ _ _ _)

theorem qext_scan_reverse (l : List PlaybackEvent) :
    ∀ (s : MetaState) (b : Bool) (now : Int) (na : List ActiveKey) (i : Bool),
    QExt s (scan_reverse s l b now na i).1 := by
  induction l with
  | nil => intro s b now na i; exact qext_refl s
  | cons e rest ih =>
    intro s b now na i
    rw [scan_reverse]
    split
    · exact qext_refl s
    · exact qext_trans (qext_do_event_reverse s e na i) (ih _ _ _ _ _)

theorem qext_active_foldl (f : MetaState → ActiveKey → MetaState)
    (hf : ∀ s k, QExt s (f s k)) :
    ∀ (l : List ActiveKey) (s : MetaState), QExt s (l.foldl f s) := by
  intro l
  induction l with
  | nil => intro s; exact qext_refl s
  | cons k rest ih =>
    intro s
    rw [List.foldl_cons]
    exact qext_trans (hf s k) (ih (f s k))

theorem qext_finish_events_forward (s : MetaState) (now : Int)
    (na : List ActiveKey) : QExt s (finish_events_forward s now na) := by
  unfold finish_events_forward
  refine qext_trans
    (qext_active_foldl _ (fun s k => qext_enqueue s k.2 ET_step false (now - k.1))
      s.active s) ?_
  refine qext_active_foldl _ ?_ na _
  intro s' k
  refine qext_trans (qext_enqueue s' k.2 ET_init false (now - k.1)) ?_
  dsimp only
  split
  · exact qext_of_eq rfl
  · exact qext_of_eq rfl

theorem qext_finish_events_reverse (s : MetaState) (now : Int)
    (na : List ActiveKey) : QExt s (finish_events_reverse s now na) := by
  unfold finish_events_reverse
  refine qext_trans
    (qext_active_foldl _ (fun s k => qext_enqueue s k.2 ET_step false (now - k.1))
      s.active s) ?_
  refine qext_active_foldl _ ?_ na _
  intro s' k
  refine qext_trans (qext_enqueue s' k.2 ET_reverse_init false (now - k.1)) ?_
  dsimp only
  split
  · exact qext_of_eq rfl
  · exact qext_of_eq rfl

theorem qext_instant_fold (l : List PlaybackEvent) :
    ∀ (s : MetaState) (et : EventType), QExt s (instant_fold s l et) := by
  induction l with
  | nil => intro s et; exact qext_refl s
  | cons e rest ih =>
    intro s et
    rw [instant_fold]
    split
    · exact qext_trans (qext_enqueue s e.n et true 0) (ih _ _)
    · exact ih _ _

theorem qext_recompute (s : MetaState) : QExt s (recompute s) := by
  unfold recompute
  split
  · exact qext_of_eq rfl
  · exact qext_refl s

/-- Claim C10: none of the playback operations removes or discards entries
already present in the deferred queue: after each operation the queue is the
old queue plus zero or more appended entries. -/
theorem c10_queue_append_only (s : MetaState) (t : ℚ) :
    QExt s (initializeAt s t) ∧ QExt s (reverseInitializeAt s t) ∧
    QExt s (step s t) ∧ QExt s (finalize s) ∧ QExt s (instant s) ∧
    QExt s (reverse_instant s) ∧ QExt s (reverse_finalize s) := by
  refine ⟨?_, ?_, ?_, ?_, ?_, ?_, ?_⟩
  · unfold initializeAt
    set s1 := recompute s with hs1
    set s2 : MetaState := { s1 with next_event_index := 0, active := [] } with hs2
    set now := double_to_int_time s2.precision t with hnow
    set r := scan_forward s2 s2.events true now [] true with hr
    set s3 : MetaState := { r.1 with next_event_index := r.2.2 } with hs3
    refine qext_trans (qext_recompute s) ?_
    refine qext_trans (qext_of_eq (rfl : s2.event_queue = s1.event_queue)) ?_
    refine qext_trans (b := r.1) ?_ ?_
    · rw [hr]; exact qext_scan_forward s2.events s2 true now [] true
    refine qext_trans (qext_of_eq (rfl : s3.event_queue = r.1.event_queue)) ?_
    exact qext_trans (qext_finish_events_forward s3 now r.2.1) (qext_of_eq rfl)
  · unfold reverseInitializeAt
    set s1 := recompute s with hs1
    set s2 : MetaState :=
      { s1 with next_event_index := s1.events.length, active := [] } with hs2
    set now := double_to_int_time s2.precision t with hnow
    set r := scan_reverse s2 s2.events.reverse true now [] true with hr
    set s3 : MetaState :=
      { r.1 with next_event_index := s2.events.length - r.2.2 } with hs3
    refine qext_trans (qext_recompute s) ?_
    refine qext_trans (qext_of_eq (rfl : s2.event_queue = s1.event_queue)) ?_
    refine qext_trans (b := r.1) ?_ ?_
    · rw [hr]; exact qext_scan_reverse s2.events.reverse s2 true now [] true
    refine qext_trans (qext_of_eq (rfl : s3.event_queue = r.1.event_queue)) ?_
    exact qext_trans (qext_finish_events_reverse s3 now r.2.1) (qext_of_eq rfl)
  · unfold step
    dsimp only
    set now := double_to_int_time s.precision t with hnow
    split
    · set r := scan_forward s (s.events.drop s.next_event_index) true now [] false
        with hr
      set s2 : MetaState :=
        { r.1 with next_event_index := s.next_event_index + r.2.2 } with hs2
      refine qext_trans (b := r.1) ?_ ?_
      · rw [hr]
        exact qext_scan_forward (s.events.drop s.next_event_index) s true now
          [] false
      refine qext_trans (qext_of_eq (rfl : s2.event_queue = r.1.event_queue)) ?_
      exact qext_trans (qext_finish_events_forward s2 now r.2.1) (qext_of_eq rfl)
    · set r := scan_reverse s ((s.events.take s.next_event_index).reverse) true
        now [] false with hr
      set s2 : MetaState :=
        { r.1 with next_event_index := s.next_event_index - r.2.2 } with hs2
      refine qext_trans (b := r.1) ?_ ?_
      · rw [hr]
        exact qext_scan_reverse ((s.events.take s.next_event_index).reverse) s
          true now [] false
      refine qext_trans (qext_of_eq (rfl : s2.event_queue = r.1.event_queue)) ?_
      exact qext_trans (qext_finish_events_reverse s2 now r.2.1) (qext_of_eq rfl)
  · unfold finalize
    set r := scan_forward s (s.events.drop s.next_event_index) false 0 [] false
      with hr
    set s2 : MetaState := { r.1 with next_event_index := r.1.events.length }
      with hs2
    set s3 := recompute s2 with hs3
    set s4 : MetaState := { s3 with curr_t := s3.duration } with hs4
    refine qext_trans (b := r.1) ?_ ?_
    · rw [hr]
      exact qext_scan_forward (s.events.drop s.next_event_index) s false 0 []
        false
    refine qext_trans (qext_of_eq (rfl : s2.event_queue = r.1.event_queue)) ?_
    refine qext_trans (qext_recompute s2) ?_
    refine qext_trans (qext_of_eq (rfl : s4.event_queue = s3.event_queue)) ?_
    exact qext_finish_events_forward s4
      (double_to_int_time s4.precision s4.curr_t) r.2.1
  · unfold instant
    set s1 := recompute s with hs1
    set s2 : MetaState := { s1 with active := [] } with hs2
    set s3 := instant_fold s2 s2.events ET_instant with hs3
    set s4 : MetaState := { s3 with next_event_index := s3.events.length }
      with hs4
    set s5 := recompute s4 with hs5
    refine qext_trans (qext_recompute s) ?_
    refine qext_trans (qext_of_eq (rfl : s2.event_queue = s1.event_queue)) ?_
    refine qext_trans (b := s3) ?_ ?_
    · rw [hs3]; exact qext_instant_fold s2.events s2 ET_instant
    refine qext_trans (qext_of_eq (rfl : s4.event_queue = s3.event_queue)) ?_
    exact qext_trans (qext_recompute s4) (qext_of_eq rfl)
  · unfold reverse_instant
    set s1 := recompute s with hs1
    set s2 : MetaState := { s1 with active := [] } with hs2
    set s3 := instant_fold s2 s2.events.reverse ET_reverse_instant with hs3
    refine qext_trans (qext_recompute s) ?_
    refine qext_trans (qext_of_eq (rfl : s2.event_queue = s1.event_queue)) ?_
    refine qext_trans (b := s3) ?_ (qext_of_eq rfl)
    rw [hs3]
    exact qext_instant_fold s2.events.reverse s2 ET_reverse_instant
  · unfold reverse_finalize
    set r := scan_reverse s ((s.events.take s.next_event_index).reverse) false
      0 [] false with hr
    set s2 : MetaState := { r.1 with next_event_index := 0 } with hs2
    refine qext_trans (b := r.1) ?_ ?_
    · rw [hr]
      exact qext_scan_reverse ((s.events.take s.next_event_index).reverse) s
        false 0 [] false
    refine qext_trans (qext_of_eq (rfl : s2.event_queue = r.1.event_queue)) ?_
    exact qext_trans (qext_finish_events_reverse s2 0 r.2.1) (qext_of_eq rfl)

/-! ### Claim C8: unmatched PushGroup compiles with a warning -/

/-- The data of a definition that the compiler never modifies (everything
but `actual_begin_time`). -/
def def_core (d : IntervalDef) : IntervalDef :=
  { d with actual_begin_time := 0 }

theorem list_set_self {α : Type} (l : List α) (n : Nat) (h : n < l.length) :
    l.set n (l.get ⟨n, h⟩) = l := by
  apply List.ext_getElem?
  intro m
  by_cases hm : m = n
  · subst hm
    rw [List.getElem?_set_self]
    · simp [List.getElem?_eq_getElem h]
    · exact h
  · rw [List.getElem?_set_ne (by omega)]

theorem map_core_set (defs : List IntervalDef) (n : Nat)
    (h : n < defs.length) (d' : IntervalDef)
    (hd : def_core d' = def_core (defs.get ⟨n, h⟩)) :
    ((defs.set n d').map def_core) = defs.map def_core := by
  rw [List.map_set, hd]
  have hget : def_core (defs.get ⟨n, h⟩) =
      (defs.map def_core).get ⟨n, by simpa using h⟩ := by
    simp
  rw [hget, list_set_self]

theorem map_type_set (defs : List IntervalDef) (n : Nat)
    (h : n < defs.length) (d' : IntervalDef)
    (hd : d'.type = (defs.get ⟨n, h⟩).type) :
    ((defs.set n d').map (fun d => d.type)) = defs.map (fun d => d.type) := by
  rw [List.map_set, hd]
  have hget : (defs.get ⟨n, h⟩).type =
      (defs.map (fun d => d.type)).get ⟨n, by simpa using h⟩ := by
    simp
  rw [hget, list_set_self]

/-- The compiler walk only fills in `actual_begin_time`: all other fields of
every definition are preserved. -/
theorem recompute_level_defs_core (prec : Int) :
    ∀ (fuel : Nat) (defs : List IntervalDef) (n : Nat) (lb pb pe le : Int),
    ((recompute_level prec fuel defs n lb pb pe le).defs).map def_core =
      defs.map def_core := by
  intro fuel
  induction fuel with
  | zero => intro defs n lb pb pe le; rfl
  | succ fuel ih =>
    intro defs n lb pb pe le
    rw [recompute_level]
    by_cases h : n < defs.length
    · simp only [dif_pos h]
      rcases htype : (defs.get ⟨n, h⟩).type <;> simp only [htype]
      · -- push
        rw [ih, ih, map_core_set defs n h _
          (by simp only [def_core]; rw [htype])]
      · -- pop
        exact map_core_set defs n h _ (by simp only [def_core]; rw [htype])
      · -- c_interval
        rw [ih, map_core_set defs n h _ (by simp only [def_core]; rw [htype])]
      · -- ext_index
        rw [ih, map_core_set defs n h _ (by simp only [def_core]; rw [htype])]
    · simp only [dif_neg h]

theorem recompute_level_defs_length (prec : Int) (fuel : Nat)
    (defs : List IntervalDef) (n : Nat) (lb pb pe le : Int) :
    (recompute_level prec fuel defs n lb pb pe le).defs.length =
      defs.length := by
  have h := recompute_level_defs_core prec fuel defs n lb pb pe le
  have := congrArg List.length h
  simpa using this

/-- The fuel `do_recompute` provides is always sufficient: the walk advances
its index at every step, so `defs.length + 1` levels of recursion starting
from index 0 never hit the fuel guard. -/
theorem recompute_level_fuel (prec : Int) :
    ∀ (fuel : Nat) (defs : List IntervalDef) (n : Nat) (lb pb pe le : Int),
    defs.length + 1 ≤ fuel + n → 1 ≤ fuel →
    (recompute_level prec fuel defs n lb pb pe le).fuel_out = false := by
  intro fuel
  induction fuel with
  | zero => intro defs n lb pb pe le _ h1; omega
  | succ fuel ih =>
    intro defs n lb pb pe le hle _
    rw [recompute_level]
    by_cases h : n < defs.length
    · simp only [dif_pos h]
      rcases htype : (defs.get ⟨n, h⟩).type <;> simp only [htype]
      · -- push: both recursive calls stay within fuel
        have hf : 1 ≤ fuel := by omega
        rw [Bool.or_eq_false_iff]
        constructor
        · exact ih _ _ _ _ _ _ (by simp only [List.length_set]; omega) hf
        · refine ih _ _ _ _ _ _ ?_ hf
          rw [recompute_level_defs_length]
          simp only [List.length_set]
          refine le_trans (show defs.length + 1 ≤ fuel + ((n + 1) + 1) by omega) ?_
          exact Nat.add_le_add_left (Nat.add_le_add_right
            (recompute_level_next_ge prec fuel _ _ _ _ _ _) 1) fuel
      -- (the pop case is closed by the simp above)
      · -- c_interval
        exact ih _ _ _ _ _ _ (by simp; omega) (by omega)
      · -- ext_index
        exact ih _ _ _ _ _ _ (by simp; omega) (by omega)
    · simp only [dif_neg h]

/-- One step of the push/pop nesting scan: a push opens a level, a pop
closes one (saturating at zero, like the walk, which stops at a stray pop). -/
def nest_step (c : Nat) (ty : DefType) : Nat :=
  match ty with
  | DT_push_level => c + 1
  | DT_pop_level => c - 1
  | _ => c

/-- The nesting scan over a list of definition kinds. -/
def mfold (l : List DefType) (c : Nat) : Nat :=
  l.foldl nest_step c

/-- Some `PushGroup` in the definition list has no matching `PopGroup`
before the end of the list: the nesting scan of the whole list ends above
zero. -/
def hasUnmatchedPush (defs : List IntervalDef) : Prop :=
  0 < mfold (defs.map (fun d => d.type)) 0

theorem mfold_cons (ty : DefType) (l : List DefType) (c : Nat) :
    mfold (ty :: l) c = mfold l (nest_step c ty) := rfl

theorem mfold_drop_succ (T : List DefType) (n : Nat) (h : n < T.length)
    (c : Nat) :
    mfold (T.drop n) c = mfold (T.drop (n + 1)) (nest_step c (T.get ⟨n, h⟩)) := by
  rw [List.drop_eq_getElem_cons h]
  rfl

/-- The balance invariant of the compiler walk: starting inside the list, a
level either stops at the matching pop or the end of the list, consuming a
slice on which the nesting scan is the identity, or runs off the end past an
unmatched push, in which case the scan of the remaining list strictly
exceeds its starting depth. -/
theorem recompute_level_balance (prec : Int) :
    ∀ (fuel : Nat) (T : List DefType) (defs : List IntervalDef) (n : Nat)
      (lb pb pe le : Int),
    defs.map (fun d => d.type) = T →
    (recompute_level prec fuel defs n lb pb pe le).fuel_out = false →
    (T.length < n → (recompute_level prec fuel defs n lb pb pe le).next = n) ∧
    (n ≤ T.length →
      ((recompute_level prec fuel defs n lb pb pe le).next ≤ T.length ∧
        ((recompute_level prec fuel defs n lb pb pe le).next = T.length ∨
          T.get? (recompute_level prec fuel defs n lb pb pe le).next =
            some DT_pop_level) ∧
        (∀ c, mfold (T.drop n) c =
          mfold (T.drop (recompute_level prec fuel defs n lb pb pe le).next) c)) ∨
      (T.length < (recompute_level prec fuel defs n lb pb pe le).next ∧
        ∀ c, c + 1 ≤ mfold (T.drop n) c)) := by
  intro fuel
  induction fuel with
  | zero =>
    intro T defs n lb pb pe le hT hfo
    exact absurd hfo (by simp [recompute_level])
  | succ fuel ih =>
    intro T defs n lb pb pe le hT hfo
    have hTlen : T.length = defs.length := by rw [← hT]; simp
    rw [recompute_level] at hfo ⊢
    by_cases h : n < defs.length
    · simp only [dif_pos h] at hfo ⊢
      have hTn : T.get? n = some ((defs.get ⟨n, h⟩).type) := by
        rw [← hT]
        simp [List.getElem?_eq_getElem, h]
      rcases htype : (defs.get ⟨n, h⟩).type <;> simp only [htype] at hfo ⊢
      · -- push
        rw [Bool.or_eq_false_iff] at hfo
        have hTset : ∀ (d' : IntervalDef), d'.type = DT_push_level →
            ((defs.set n d').map (fun d => d.type)) = T := by
          intro d' hd'
          rw [← hT]
          exact map_type_set defs n h d' (by rw [hd', htype])
        have hmaps : ∀ (l : List IntervalDef), l.map (fun d => d.type) =
            (l.map def_core).map (fun d => d.type) := by
          intro l
          rw [List.map_map]
          rfl
        have hinner := ih T _ (n + 1) _ _ _ _ (hTset _ (by first | rfl | exact htype)) hfo.1
        have hcont := ih T _ _ _ _ _ _ (by
          rw [hmaps, recompute_level_defs_core, ← hmaps]
          exact hTset _ (by first | rfl | exact htype)) hfo.2
        have hpushstep : ∀ c, mfold (T.drop n) c = mfold (T.drop (n + 1)) (c + 1) := by
          intro c
          rw [mfold_drop_succ T n (by omega) c]
          have : T.get ⟨n, by omega⟩ = DT_push_level := by
            have := hTn
            rw [List.get?_eq_getElem?, List.getElem?_eq_getElem (by omega)] at this
            simp only [Option.some_inj] at this
            rw [List.get_eq_getElem, this, htype]
          rw [this]
          rfl
        constructor
        · intro hlt; omega
        · intro _
          rcases hinner.2 (by omega) with ⟨hin_le, hin_or, hin_eq⟩ | ⟨hin_gt, hin_ge⟩
          · rcases hin_or with hin_end | hin_pop
            · -- the inner level ran exactly to the end of the list:
              -- the continuation starts past the end
              right
              have hcnext := hcont.1 (by omega)
              constructor
              · omega
              · intro c
                rw [hpushstep c, hin_eq (c + 1), hin_end]
                simp [mfold]
            · -- the inner level stopped at its pop
              rcases List.get?_eq_some.mp hin_pop with ⟨hin_lt, hin_get⟩
              rcases hcont.2 (by omega) with ⟨hc_le, hc_or, hc_eq⟩ | ⟨hc_gt, hc_ge⟩
              · left
                refine ⟨hc_le, hc_or, ?_⟩
                intro c
                rw [hpushstep c, hin_eq (c + 1),
                  mfold_drop_succ T _ hin_lt (c + 1), hin_get]
                exact hc_eq c
              · right
                refine ⟨hc_gt, ?_⟩
                intro c
                rw [hpushstep c, hin_eq (c + 1),
                  mfold_drop_succ T _ hin_lt (c + 1), hin_get]
                exact hc_ge c
          · -- the inner level ran off the end of the list
            right
            have hcnext := hcont.1 (by omega)
            refine ⟨by omega, ?_⟩
            intro c
            rw [hpushstep c]
            have := hin_ge (c + 1)
            omega
      · -- pop: the level stops here
        refine ⟨fun hlt => ?_, fun _ => Or.inl
          ⟨by omega, Or.inr (by rw [hTn, htype]), fun c => trivial⟩⟩
        omega
      · -- c_interval
        have hTset : ∀ (d' : IntervalDef), d'.type = DT_c_interval →
            ((defs.set n d').map (fun d => d.type)) = T := by
          intro d' hd'
          rw [← hT]
          exact map_type_set defs n h d' (by rw [hd', htype])
        have hrec := ih T _ (n + 1) _ _ _ _ (hTset _ (by first | rfl | exact htype)) hfo
        have hstep : ∀ c, mfold (T.drop n) c = mfold (T.drop (n + 1)) c := by
          intro c
          rw [mfold_drop_succ T n (by omega) c]
          have : T.get ⟨n, by omega⟩ = DT_c_interval := by
            have := hTn
            rw [List.get?_eq_getElem?, List.getElem?_eq_getElem (by omega)] at this
            simp only [Option.some_inj] at this
            rw [List.get_eq_getElem, this, htype]
          rw [this]
          rfl
        constructor
        · intro hlt; omega
        · intro _
          rcases hrec.2 (by omega) with ⟨h1, h2, h3⟩ | ⟨h1, h2⟩
          · left
            exact ⟨h1, h2, fun c => by rw [hstep c]; exact h3 c⟩
          · right
            exact ⟨h1, fun c => by rw [hstep c]; exact h2 c⟩
      · -- ext_index
        have hTset : ∀ (d' : IntervalDef), d'.type = DT_ext_index →
            ((defs.set n d').map (fun d => d.type)) = T := by
          intro d' hd'
          rw [← hT]
          exact map_type_set defs n h d' (by rw [hd', htype])
        have hrec := ih T _ (n + 1) _ _ _ _ (hTset _ (by first | rfl | exact htype)) hfo
        have hstep : ∀ c, mfold (T.drop n) c = mfold (T.drop (n + 1)) c := by
          intro c
          rw [mfold_drop_succ T n (by omega) c]
          have : T.get ⟨n, by omega⟩ = DT_ext_index := by
            have := hTn
            rw [List.get?_eq_getElem?, List.getElem?_eq_getElem (by omega)] at this
            simp only [Option.some_inj] at this
            rw [List.get_eq_getElem, this, htype]
          rw [this]
          rfl
        constructor
        · intro hlt; omega
        · intro _
          rcases hrec.2 (by omega) with ⟨h1, h2, h3⟩ | ⟨h1, h2⟩
          · left
            exact ⟨h1, h2, fun c => by rw [hstep c]; exact h3 c⟩
          · right
            exact ⟨h1, fun c => by rw [hstep c]; exact h2 c⟩
    · simp only [dif_neg h]
      constructor
      · intro _; trivial
      · intro hle
        left
        have hn : n = T.length := by omega
        exact ⟨by omega, Or.inl hn, fun c => trivial⟩

/-- Claim C8: a definition list in which some `PushGroup` has no matching
`PopGroup` still compiles to completion: `do_recompute` produces the events
list and total duration, resets the dirty flag, raises the mismatch warning,
and no assertion (fatal fault) fires during compilation. -/
theorem c8_unbalanced_push_warning (s : MetaState)
    (hun : hasUnmatchedPush s.defs) (hok : s.assert_failed = false) :
    (do_recompute s).warning = true ∧
    (do_recompute s).assert_failed = false ∧
    (do_recompute s).dirty = false ∧
    (do_recompute s).duration =
      int_to_double_time s.precision (do_recompute s).end_time ∧
    (do_recompute s).events = sortEventsByTime (compile_walk s).events := by
  have hfu : (recompute_level s.precision (s.defs.length + 1) s.defs
      0 0 0 0 0).fuel_out = false := by
    apply recompute_level_fuel
    · omega
    · omega
  have hbal := recompute_level_balance s.precision (s.defs.length + 1)
    (s.defs.map (fun d => d.type)) s.defs 0 0 0 0 0 rfl hfu
  have hlen : (s.defs.map (fun d => d.type)).length = s.defs.length := by simp
  have hnext : (recompute_level s.precision (s.defs.length + 1) s.defs
      0 0 0 0 0).next ≠ s.defs.length := by
    rcases hbal.2 (by omega) with ⟨h1, h2, h3⟩ | ⟨h1, h2⟩
    · rcases h2 with h2 | h2
      · -- if the walk consumed the list exactly, the nesting scan would
        -- return to zero, contradicting the unmatched push
        exfalso
        have hz := h3 0
        rw [h2, List.drop_length] at hz
        simp only [List.drop_zero] at hz
        unfold hasUnmatchedPush at hun
        rw [hz] at hun
        simp [mfold] at hun
      · -- the walk stopped at a stray pop strictly inside the list
        rcases List.get?_eq_some.mp h2 with ⟨hlt, _⟩
        omega
    · omega
  refine ⟨?_, ?_, rfl, rfl, rfl⟩
  · exact decide_eq_true hnext
  · have hform : (do_recompute s).assert_failed =
        (s.assert_failed || (recompute_level s.precision (s.defs.length + 1)
          s.defs 0 0 0 0 0).fuel_out) := rfl
    rw [hform, hok, hfu]
    rfl

/-- A concrete schedule with a `pushGroup` that is never popped, witnessing
claim C8. -/
def c8s : MetaState :=
  (add_c_interval ((push_level (mkMeta 1) 0 RS_level_begin).1)
    (some ⟨1, true⟩) 0 RS_level_begin).1

/-- Witness for claim C8: the unmatched push compiles with the warning set,
no assertion fired, and duration 1. -/
theorem c8_witness :
    0 < mfold (c8s.defs.map (fun d => d.type)) 0 ∧
    ((do_recompute c8s).warning = true ∧
      (do_recompute c8s).assert_failed = false) ∧
    (do_recompute c8s).duration = 1 := by
  have h := c8_unbalanced_push_warning c8s
    (by unfold hasUnmatchedPush; decide) (by decide)
  exact ⟨by decide, ⟨h.1, h.2.1⟩, by decide⟩

/-! ### Claim C6: begin/end/instant shape of the compiled events -/

/-- The quantized duration the compiler uses for a definition entry. -/
def def_qdur (prec : Int) (d : IntervalDef) : Int :=
  match d.type with
  | DT_c_interval => double_to_int_time prec (ci_duration d)
  | DT_ext_index => double_to_int_time prec d.ext_duration
  | _ => 0

/-- The quantized duration of the definition at index `k`. -/
def qdur_at (prec : Int) (defs : List IntervalDef) (k : Nat) : Int :=
  match defs.get? k with
  | some d => def_qdur prec d
  | none => 0

/-- The compiled events that reference definition index `k`. -/
def kfilter (k : Nat) (l : List PlaybackEvent) : List PlaybackEvent :=
  l.filter (fun e => e.n == k)

theorem kfilter_append (k : Nat) (l1 l2 : List PlaybackEvent) :
    kfilter k (l1 ++ l2) = kfilter k l1 ++ kfilter k l2 := by
  simp [kfilter]

theorem kfilter_eq_nil (k : Nat) (l : List PlaybackEvent)
    (h : ∀ e ∈ l, e.n ≠ k) : kfilter k l = [] := by
  unfold kfilter
  rw [List.filter_eq_nil_iff]
  intro a ha
  simpa using h a ha

theorem kfilter_mem_of_ne_nil (k : Nat) (l : List PlaybackEvent)
    (h : kfilter k l ≠ []) : ∃ e ∈ l, e.n = k := by
  rcases hne : kfilter k l with _ | ⟨e, rest⟩
  · exact absurd hne h
  · have he : e ∈ kfilter k l := by rw [hne]; exact List.mem_cons_self e rest
    rcases List.mem_filter.mp he with ⟨hel, hbe⟩
    exact ⟨e, hel, by simpa using hbe⟩

theorem qdur_at_congr (prec : Int) (l l' : List IntervalDef)
    (h : l.map def_core = l'.map def_core) (k : Nat) :
    qdur_at prec l k = qdur_at prec l' k := by
  have h1 : (l.get? k).map def_core = (l'.get? k).map def_core := by
    rw [← List.get?_map, ← List.get?_map, h]
  unfold qdur_at
  rcases hk : l.get? k with _ | d
  · rcases hk' : l'.get? k with _ | d'
    · rfl
    · exfalso
      try rw [hk] at h1
      try rw [hk'] at h1
      simp at h1
  · rcases hk' : l'.get? k with _ | d'
    · exfalso
      try rw [hk] at h1
      try rw [hk'] at h1
      simp at h1
    · try rw [hk] at h1
      try rw [hk'] at h1
      simp at h1
      show def_qdur prec d = def_qdur prec d'
      calc def_qdur prec d = def_qdur prec (def_core d) := rfl
        _ = def_qdur prec (def_core d') := by rw [h1]
        _ = def_qdur prec d' := rfl

/-- Shape of the events a single definition contributes to the compiler
walk: nothing (the walk never reached it), exactly one instant event (its
quantized duration is zero), or exactly one begin/end pair whose end lies
exactly the quantized duration after the begin and references it. -/
theorem recompute_level_shape (prec : Int) :
    ∀ (fuel : Nat) (C defs : List IntervalDef) (n : Nat) (lb pb pe le : Int)
      (k : Nat),
    defs.map def_core = C.map def_core →
    kfilter k (recompute_level prec fuel defs n lb pb pe le).events = [] ∨
    (qdur_at prec C k = 0 ∧ ∃ bt,
      kfilter k (recompute_level prec fuel defs n lb pb pe le).events =
        [⟨bt, k, PET_instant, bt⟩]) ∨
    (qdur_at prec C k ≠ 0 ∧ ∃ bt,
      kfilter k (recompute_level prec fuel defs n lb pb pe le).events =
        [⟨bt, k, PET_begin, bt⟩,
         ⟨bt + qdur_at prec C k, k, PET_end, bt⟩]) := by
  intro fuel
  induction fuel with
  | zero =>
    intro C defs n lb pb pe le k hC
    left
    rfl
  | succ fuel ih =>
    intro C defs n lb pb pe le k hC
    rw [recompute_level]
    by_cases h : n < defs.length
    · simp only [dif_pos h]
      have hgn : defs.get? n = some (defs.get ⟨n, h⟩) := by
        rw [List.get?_eq_getElem?, List.getElem?_eq_getElem h]
        rfl
      rcases htype : (defs.get ⟨n, h⟩).type <;> simp only [htype]
      · -- push
        set bt := get_begin_time prec (defs.get ⟨n, h⟩) lb pb pe with hbt
        set dset : List IntervalDef := defs.set n
          { type := DT_push_level,
            c_interval := (defs.get ⟨n, h⟩).c_interval,
            ext_index := (defs.get ⟨n, h⟩).ext_index,
            ext_name := (defs.get ⟨n, h⟩).ext_name,
            ext_duration := (defs.get ⟨n, h⟩).ext_duration,
            ext_open_ended := (defs.get ⟨n, h⟩).ext_open_ended,
            rel_time := (defs.get ⟨n, h⟩).rel_time,
            rel_to := (defs.get ⟨n, h⟩).rel_to,
            actual_begin_time := bt } with hdset
        have hdsetC : dset.map def_core = C.map def_core := by
          rw [hdset, map_core_set defs n h _ (by simp only [def_core]; rw [htype])]
          exact hC
        by_cases hin : kfilter k
            (recompute_level prec fuel dset (n + 1) bt bt bt bt).events = []
        · rw [kfilter_append, hin, List.nil_append]
          refine ih C _ _ _ _ _ _ k ?_
          rw [recompute_level_defs_core]
          exact hdsetC
        · rcases kfilter_mem_of_ne_nil _ _ hin with ⟨e, he, hek⟩
          have hkb := (recompute_level_bounds prec fuel _ _ _ _ _ _ e he).2
          have hcontnil : kfilter k (recompute_level prec fuel
              (recompute_level prec fuel dset (n + 1) bt bt bt bt).defs
              ((recompute_level prec fuel dset (n + 1) bt bt bt bt).next + 1)
              lb bt
              (recompute_level prec fuel dset (n + 1) bt bt bt bt).level_end
              (max le (recompute_level prec fuel dset
                (n + 1) bt bt bt bt).level_end)).events = [] := by
            refine kfilter_eq_nil _ _ ?_
            intro e' he'
            have hb := (recompute_level_bounds prec fuel _ _ _ _ _ _ e' he').1
            omega
          rw [kfilter_append, hcontnil, List.append_nil]
          exact ih C _ _ _ _ _ _ k hdsetC
      · -- pop
        left
        rfl
      · -- c_interval
        set bt := get_begin_time prec (defs.get ⟨n, h⟩) lb pb pe with hbt
        set q := double_to_int_time prec (ci_duration (defs.get ⟨n, h⟩)) with hq
        set dset : List IntervalDef := defs.set n
          { type := DT_c_interval,
            c_interval := (defs.get ⟨n, h⟩).c_interval,
            ext_index := (defs.get ⟨n, h⟩).ext_index,
            ext_name := (defs.get ⟨n, h⟩).ext_name,
            ext_duration := (defs.get ⟨n, h⟩).ext_duration,
            ext_open_ended := (defs.get ⟨n, h⟩).ext_open_ended,
            rel_time := (defs.get ⟨n, h⟩).rel_time,
            rel_to := (defs.get ⟨n, h⟩).rel_to,
            actual_begin_time := bt } with hdset
        have hdsetC : dset.map def_core = C.map def_core := by
          rw [hdset, map_core_set defs n h _ (by simp only [def_core]; rw [htype])]
          exact hC
        by_cases hkn : k = n
        · subst hkn
          have hrecnil : kfilter k (recompute_level prec fuel dset (k + 1)
              lb bt (bt + q) (max le (bt + q))).events = [] := by
            refine kfilter_eq_nil _ _ ?_
            intro e' he'
            have hb := (recompute_level_bounds prec fuel _ _ _ _ _ _ e' he').1
            omega
          have hqn : qdur_at prec C k = q := by
            rw [← qdur_at_congr prec defs C hC k]
            unfold qdur_at
            rw [hgn]
            show def_qdur prec (defs.get ⟨k, h⟩) = q
            rw [hq]
            unfold def_qdur
            rw [htype]
          split
          · rename_i hbe
            right
            left
            refine ⟨by omega, bt, ?_⟩
            rw [kfilter_append, hrecnil, List.append_nil]
            simp [kfilter]
          · rename_i hbe
            right
            right
            refine ⟨by rw [hqn]; omega, bt, ?_⟩
            rw [kfilter_append, hrecnil, List.append_nil, hqn]
            simp [kfilter]
        · have hheadnil : kfilter k (if bt = bt + q then
              ([⟨bt, n, PET_instant, bt⟩] : List PlaybackEvent)
            else
              [⟨bt, n, PET_begin, bt⟩, ⟨bt + q, n, PET_end, bt⟩]) = [] := by
            split <;> refine kfilter_eq_nil _ _ ?_ <;> intro e' he' <;>
              simp only [List.mem_cons, List.mem_singleton,
                List.not_mem_nil, or_false] at he'
            · rw [he']
              exact fun hc => hkn hc.symm
            · rcases he' with he' | he' <;> rw [he'] <;>
                exact fun hc => hkn hc.symm
          rw [kfilter_append, hheadnil, List.nil_append]
          exact ih C _ _ _ _ _ _ k hdsetC
      · -- ext_index
        set bt := get_begin_time prec (defs.get ⟨n, h⟩) lb pb pe with hbt
        set q := double_to_int_time prec (defs.get ⟨n, h⟩).ext_duration with hq
        set dset : List IntervalDef := defs.set n
          { type := DT_ext_index,
            c_interval := (defs.get ⟨n, h⟩).c_interval,
            ext_index := (defs.get ⟨n, h⟩).ext_index,
            ext_name := (defs.get ⟨n, h⟩).ext_name,
            ext_duration := (defs.get ⟨n, h⟩).ext_duration,
            ext_open_ended := (defs.get ⟨n, h⟩).ext_open_ended,
            rel_time := (defs.get ⟨n, h⟩).rel_time,
            rel_to := (defs.get ⟨n, h⟩).rel_to,
            actual_begin_time := bt } with hdset
        have hdsetC : dset.map def_core = C.map def_core := by
          rw [hdset, map_core_set defs n h _ (by simp only [def_core]; rw [htype])]
          exact hC
        by_cases hkn : k = n
        · subst hkn
          have hrecnil : kfilter k (recompute_level prec fuel dset (k + 1)
              lb bt (bt + q) (max le (bt + q))).events = [] := by
            refine kfilter_eq_nil _ _ ?_
            intro e' he'
            have hb := (recompute_level_bounds prec fuel _ _ _ _ _ _ e' he').1
            omega
          have hqn : qdur_at prec C k = q := by
            rw [← qdur_at_congr prec defs C hC k]
            unfold qdur_at
            rw [hgn]
            show def_qdur prec (defs.get ⟨k, h⟩) = q
            rw [hq]
            unfold def_qdur
            rw [htype]
          split
          · rename_i hbe
            right
            left
            refine ⟨by omega, bt, ?_⟩
            rw [kfilter_append, hrecnil, List.append_nil]
            simp [kfilter]
          · rename_i hbe
            right
            right
            refine ⟨by rw [hqn]; omega, bt, ?_⟩
            rw [kfilter_append, hrecnil, List.append_nil, hqn]
            simp [kfilter]
        · have hheadnil : kfilter k (if bt = bt + q then
              ([⟨bt, n, PET_instant, bt⟩] : List PlaybackEvent)
            else
              [⟨bt, n, PET_begin, bt⟩, ⟨bt + q, n, PET_end, bt⟩]) = [] := by
            split <;> refine kfilter_eq_nil _ _ ?_ <;> intro e' he' <;>
              simp only [List.mem_cons, List.mem_singleton,
                List.not_mem_nil, or_false] at he'
            · rw [he']
              exact fun hc => hkn hc.symm
            · rcases he' with he' | he' <;> rw [he'] <;>
                exact fun hc => hkn hc.symm
          rw [kfilter_append, hheadnil, List.nil_append]
          exact ih C _ _ _ _ _ _ k hdsetC
    · simp only [dif_neg h]
      left
      rfl

theorem perm_pair_sorted (l : List PlaybackEvent) (a b : PlaybackEvent)
    (hp : List.Perm l [a, b])
    (hs : l.Pairwise (fun x y => x.time ≤ y.time))
    (hab : a.time < b.time) : l = [a, b] := by
  have hlen : l.length = 2 := by simpa using hp.length_eq
  rcases l with _ | ⟨x, l⟩
  · simp at hlen
  rcases l with _ | ⟨y, l⟩
  · simp at hlen
  rcases l with _ | ⟨z, l⟩
  · -- l = [x, y]
    have hx : x ∈ ([a, b] : List PlaybackEvent) :=
      hp.mem_iff.mp (List.mem_cons_self x [y])
    rcases List.mem_cons.mp hx with hxa | hxb
    · have h2 : List.Perm [y] [b] := by
        have hp' := hp
        rw [hxa] at hp'
        exact hp'.cons_inv
      have hy : y = b := by simpa using List.perm_singleton.mp h2
      rw [hxa, hy]
    · have hxb' : x = b := by simpa using hxb
      have h2 : List.Perm [y] [a] := by
        have hswap : List.Perm ([a, b] : List PlaybackEvent) [b, a] :=
          List.Perm.swap b a []
        have hp' := hp.trans hswap
        rw [hxb'] at hp'
        exact hp'.cons_inv
      have hy : y = a := by simpa using List.perm_singleton.mp h2
      exfalso
      rcases List.pairwise_cons.mp hs with ⟨hle, _⟩
      have h3 := hle y (List.mem_cons_self y [])
      rw [hxb', hy] at h3
      omega
  · simp at hlen

/-- Claim C6 (amended): each action definition contributes to the compiled
events list either nothing (the compiler walk was cut off by an unmatched
`PopGroup` before reaching it), or exactly one Instant event (quantized
duration zero), or exactly one Begin and one End event referencing that
Begin, with the End's time exactly the quantized duration after the Begin's
— hence at or after the Begin exactly when that duration is nonnegative, in
which case the sorted list keeps the Begin first. -/
theorem c6_event_shapes (s : MetaState) (k : Nat) (hk : k < s.defs.length)
    (hact : (s.defs.get ⟨k, hk⟩).type = DT_c_interval ∨
      (s.defs.get ⟨k, hk⟩).type = DT_ext_index) :
    kfilter k (do_recompute s).events = [] ∨
    (qdur_at s.precision s.defs k = 0 ∧ ∃ bt,
      kfilter k (do_recompute s).events = [⟨bt, k, PET_instant, bt⟩]) ∨
    (qdur_at s.precision s.defs k ≠ 0 ∧ ∃ bt,
      List.Perm (kfilter k (do_recompute s).events)
        [⟨bt, k, PET_begin, bt⟩,
         ⟨bt + qdur_at s.precision s.defs k, k, PET_end, bt⟩] ∧
      (0 < qdur_at s.precision s.defs k →
        kfilter k (do_recompute s).events =
          [⟨bt, k, PET_begin, bt⟩,
           ⟨bt + qdur_at s.precision s.defs k, k, PET_end, bt⟩])) := by
  have hshape := recompute_level_shape s.precision (s.defs.length + 1)
    s.defs s.defs 0 0 0 0 0 k rfl
  have hperm : List.Perm (kfilter k (do_recompute s).events)
      (kfilter k (recompute_level s.precision (s.defs.length + 1)
        s.defs 0 0 0 0 0).events) :=
    (sortEventsByTime_perm (compile_walk s).events).filter _
  have hsorted : (kfilter k (do_recompute s).events).Pairwise
      (fun x y => x.time ≤ y.time) :=
    List.Pairwise.sublist (List.filter_sublist _) (sortEventsByTime_pairwise _)
  rcases hshape with h1 | ⟨hq, bt, h1⟩ | ⟨hq, bt, h1⟩
  · left
    rw [h1] at hperm
    exact hperm.eq_nil
  · right
    left
    rw [h1] at hperm
    exact ⟨hq, bt, List.perm_singleton.mp hperm⟩
  · right
    right
    rw [h1] at hperm
    refine ⟨hq, bt, hperm, ?_⟩
    intro hpos
    refine perm_pair_sorted _ _ _ hperm hsorted ?_
    simp only
    omega

/-- Schedule showing the original claim false: an external action with
declared duration `-1` (nothing in the code rejects it). -/
def c6neg : MetaState :=
  (add_ext_index (mkMeta 1) 7 "x" (-1) true 0 RS_level_begin).1

/-- Schedule whose action is cut off by a stray `PopGroup` before it. -/
def c6pop : MetaState :=
  (add_c_interval ((pop_level { mkMeta 1 with current_nesting_level := 1 }).1)
    (some ⟨1, true⟩) 0 RS_level_begin).1

/-- Counterexample to claim C6 as stated: the action of `c6neg` has nonzero
quantized duration (-1), yet its compiled End event lies strictly before its
Begin event (the sorted events list is `[End at -1, Begin at 0]`); and the
nonzero-duration action of `c6pop` yields no Begin/End pair at all because
a stray PopGroup stops the walk before reaching it. -/
theorem c6_counterexample :
    ((do_recompute c6neg).events =
      [⟨-1, 0, PET_end, 0⟩, ⟨0, 0, PET_begin, 0⟩] ∧
      qdur_at 1 c6neg.defs 0 = -1) ∧
    (qdur_at 1 c6pop.defs 1 = 1 ∧ (do_recompute c6pop).events = []) := by
  decide

/-- Schedule with one native action of duration 2 used as the C6 witness. -/
def c6s : MetaState :=
  (add_c_interval (mkMeta 1) (some ⟨2, true⟩) 0 RS_level_begin).1

/-- Witness for claim C6 at a concrete schedule. -/
theorem c6_witness :
    kfilter 0 (do_recompute c6s).events = [] ∨
    (qdur_at c6s.precision c6s.defs 0 = 0 ∧ ∃ bt,
      kfilter 0 (do_recompute c6s).events = [⟨bt, 0, PET_instant, bt⟩]) ∨
    (qdur_at c6s.precision c6s.defs 0 ≠ 0 ∧ ∃ bt,
      List.Perm (kfilter 0 (do_recompute c6s).events)
        [⟨bt, 0, PET_begin, bt⟩,
         ⟨bt + qdur_at c6s.precision c6s.defs 0, 0, PET_end, bt⟩] ∧
      (0 < qdur_at c6s.precision c6s.defs 0 →
        kfilter 0 (do_recompute c6s).events =
          [⟨bt, 0, PET_begin, bt⟩,
           ⟨bt + qdur_at c6s.precision c6s.defs 0, 0, PET_end, bt⟩])) :=
  c6_event_shapes c6s 0 (by decide) (Or.inl (by decide))

/-! ### Claim C2: what `instant()` actually dispatches -/

/-- Event index `n` targets an action definition (a C++ interval or an
external index). -/
def target_action (defs : List IntervalDef) (n : Nat) : Bool :=
  match defs.get? n with
  | some d => decide (d.type = DT_c_interval ∨ d.type = DT_ext_index)
  | none => false

/-- The action definition targeted by index `n` is declared open-ended. -/
def target_open_ended (defs : List IntervalDef) (n : Nat) : Bool :=
  match defs.get? n with
  | some d =>
    match d.type with
    | DT_c_interval => ci_open_ended d
    | DT_ext_index => d.ext_open_ended
    | _ => false
  | none => false

/-- Dispatching `ET_instant` with `is_initial` set: suppressed exactly when
the target action is not open-ended, otherwise invoked synchronously (empty
queue, native target) or appended to the deferred queue. -/
theorem enqueue_instant_cases (s : MetaState) (n : Nat)
    (hn : target_action s.defs n = true) :
    (target_open_ended s.defs n = false ∧
      enqueue_event s n ET_instant true 0 = s) ∨
    (target_open_ended s.defs n = true ∧
      (enqueue_event s n ET_instant true 0 =
        { s with trace := s.trace ++
            [(n, ET_instant, int_to_double_time s.precision 0)] } ∨
       enqueue_event s n ET_instant true 0 =
        { s with event_queue := s.event_queue ++ [⟨n, ET_instant, 0⟩] })) := by
  unfold target_action at hn
  unfold target_open_ended enqueue_event
  cases h : s.defs.get? n with
  | none =>
    rw [h] at hn
    simp at hn
  | some d =>
    simp only [h] at hn ⊢
    cases htype : d.type with
    | DT_c_interval =>
      simp only [htype] at hn ⊢
      by_cases hoe : ci_open_ended d = false
      · left
        exact ⟨hoe, by simp [hoe]⟩
      · have hoe' : ci_open_ended d = true := by simpa using hoe
        right
        refine ⟨hoe', ?_⟩
        by_cases hq : s.event_queue = []
        · left
          simp [hoe', hq, set_t]
        · right
          simp [hoe', hq]
    | DT_ext_index =>
      simp only [htype] at hn ⊢
      by_cases hoe : d.ext_open_ended = false
      · left
        exact ⟨hoe, by simp [hoe]⟩
      · have hoe' : d.ext_open_ended = true := by simpa using hoe
        right
        exact ⟨hoe', Or.inr (by simp [hoe'])⟩
    | DT_push_level => simp [htype] at hn
    | DT_pop_level => simp [htype] at hn

/-- `instant`'s loop only extends the trace and the deferred queue, with
`ET_instant` entries, one per non-begin event whose target is open-ended. -/
theorem instant_fold_spec (l : List PlaybackEvent) (s : MetaState)
    (hvalid : ∀ e ∈ l, target_action s.defs e.n = true) :
    ∃ tr qe,
      instant_fold s l ET_instant =
        { s with trace := s.trace ++ tr,
                 event_queue := s.event_queue ++ qe } ∧
      (∀ c ∈ tr, c.2.1 = ET_instant) ∧
      (∀ q ∈ qe, q.event_type = ET_instant) ∧
      tr.length + qe.length =
        (l.filter (fun e => decide (e.type ≠ PET_begin) &&
          target_open_ended s.defs e.n)).length := by
  induction l generalizing s with
  | nil =>
    exact ⟨[], [], by simp [instant_fold], by simp, by simp, by simp⟩
  | cons e rest ih =>
    have hv_e : target_action s.defs e.n = true :=
      hvalid e (List.mem_cons_self e rest)
    have hv_rest : ∀ x ∈ rest, target_action s.defs x.n = true :=
      fun x hx => hvalid x (List.mem_cons_of_mem e hx)
    by_cases hb : e.type = PET_begin
    · rcases ih s hv_rest with ⟨tr, qe, heq, htr, hqe, hlen⟩
      refine ⟨tr, qe, ?_, htr, hqe, ?_⟩
      · rw [instant_fold, if_neg (by simp [hb])]
        exact heq
      · rw [hlen, List.filter_cons, if_neg (by simp [hb])]
    · rw [instant_fold, if_pos (by simp [hb])]
      rcases enqueue_instant_cases s e.n hv_e with ⟨hoe, hs⟩ | ⟨hoe, hs | hs⟩
      · rcases ih s hv_rest with ⟨tr, qe, heq, htr, hqe, hlen⟩
        refine ⟨tr, qe, ?_, htr, hqe, ?_⟩
        · rw [hs]; exact heq
        · rw [hlen, List.filter_cons, if_neg (by simp [hb, hoe])]
      · have hv_rest' : ∀ x ∈ rest,
            target_action ({ s with trace := s.trace ++
              [(e.n, ET_instant, int_to_double_time s.precision 0)] }).defs
              x.n = true := hv_rest
        rcases ih _ hv_rest' with ⟨tr, qe, heq, htr, hqe, hlen⟩
        refine ⟨(e.n, ET_instant, int_to_double_time s.precision 0) :: tr,
          qe, ?_, ?_, hqe, ?_⟩
        · rw [hs, heq]
          simp
        · intro c hc
          rcases List.mem_cons.mp hc with hc | hc
          · rw [hc]
          · exact htr c hc
        · rw [List.filter_cons, if_pos (by simp [hb, hoe])]
          simp only [List.length_cons]
          dsimp only at hlen
          omega
      · have hv_rest' : ∀ x ∈ rest,
            target_action ({ s with event_queue := s.event_queue ++
              [(⟨e.n, ET_instant, 0⟩ : EventQueueEntry)] }).defs x.n = true :=
          hv_rest
        rcases ih _ hv_rest' with ⟨tr, qe, heq, htr, hqe, hlen⟩
        refine ⟨tr, (⟨e.n, ET_instant, 0⟩ : EventQueueEntry) :: qe,
          ?_, htr, ?_, ?_⟩
        · rw [hs, heq]
          simp
        · intro q hq
          rcases List.mem_cons.mp hq with hq | hq
          · rw [hq]
          · exact hqe q hq
        · rw [List.filter_cons, if_pos (by simp [hb, hoe])]
          simp only [List.length_cons]
          dsimp only at hlen
          omega

/-- After `recompute` the dirty flag is always clear. -/
theorem recompute_dirty (s : MetaState) : (recompute s).dirty = false := by
  unfold recompute
  split
  · rfl
  · next h => simpa using h

/-- `recompute` is the identity on a clean state. -/
theorem recompute_clean (s : MetaState) (h : s.dirty = false) :
    recompute s = s := by
  unfold recompute
  rw [h]
  simp

/-- Claim C2 (amended): `instant()` never populates the active set, leaves
the cursor at the end of the compiled events list and the current time at
the total duration, and dispatches exactly one `ET_instant` callback —
synchronously on the trace or deferred on the queue — for each non-begin
compiled event whose target action is open-ended; non-begin events whose
target is not open-ended are suppressed entirely. -/
theorem c2_instant_dispatch (s : MetaState)
    (hvalid : ∀ e ∈ (recompute s).events,
      target_action (recompute s).defs e.n = true) :
    (instant s).active = [] ∧
    (instant s).next_event_index = (instant s).events.length ∧
    (instant s).events = (recompute s).events ∧
    (instant s).curr_t = (instant s).duration ∧
    ∃ tr qe,
      (instant s).trace = (recompute s).trace ++ tr ∧
      (instant s).event_queue = (recompute s).event_queue ++ qe ∧
      (∀ c ∈ tr, c.2.1 = ET_instant) ∧
      (∀ q ∈ qe, q.event_type = ET_instant) ∧
      tr.length + qe.length =
        ((recompute s).events.filter (fun e =>
          decide (e.type ≠ PET_begin) &&
          target_open_ended (recompute s).defs e.n)).length := by
  rcases instant_fold_spec
      (({ recompute s with active := [] } : MetaState).events)
      { recompute s with active := [] } (fun e he => hvalid e he)
    with ⟨tr, qe, heq, htr, hqe, hlen⟩
  have hd : (recompute s).dirty = false := recompute_dirty s
  have hinst : instant s =
      { recompute s with
          active := [],
          next_event_index := (recompute s).events.length,
          curr_t := (recompute s).duration,
          trace := (recompute s).trace ++ tr,
          event_queue := (recompute s).event_queue ++ qe } := by
    dsimp only at heq
    dsimp only [instant]
    rw [heq]
    dsimp only
    rw [recompute_clean]
    exact hd
  rw [hinst]
  exact ⟨rfl, rfl, rfl, rfl, tr, qe, rfl, rfl, htr, hqe, hlen⟩

/-- Schedule with one non-open-ended native action of duration 2, showing
the original claim C2 false. -/
def c2x : MetaState :=
  (add_c_interval (mkMeta 1) (some ⟨2, false⟩) 0 RS_level_begin).1

/-- Counterexample to claim C2 as stated: the compiled schedule of `c2x`
has an End event (one non-begin event), yet `instant()` dispatches nothing
at all for it — the trace and the deferred queue both stay empty — because
the action is not open-ended and `enqueue_event` drops initial instants of
non-open-ended actions. -/
theorem c2_counterexample :
    ((instant c2x).events.filter (fun e => decide (e.type = PET_end))).length
      = 1 ∧
    (instant c2x).trace = [] ∧
    (instant c2x).event_queue = [] ∧
    (instant c2x).assert_failed = false := by
  decide

/-- Schedule with one open-ended native action of duration 2 (Scenario C),
used as the C2 witness. -/
def c2w : MetaState :=
  (add_c_interval (mkMeta 1) (some ⟨2, true⟩) 0 RS_level_begin).1

/-- Witness for claim C2 at a concrete schedule. -/
theorem c2_witness :
    (∀ e ∈ (recompute c2w).events,
      target_action (recompute c2w).defs e.n = true) ∧
    ((instant c2w).active = [] ∧
     (instant c2w).next_event_index = (instant c2w).events.length ∧
     (instant c2w).events = (recompute c2w).events ∧
     (instant c2w).curr_t = (instant c2w).duration ∧
     ∃ tr qe,
       (instant c2w).trace = (recompute c2w).trace ++ tr ∧
       (instant c2w).event_queue = (recompute c2w).event_queue ++ qe ∧
       (∀ c ∈ tr, c.2.1 = ET_instant) ∧
       (∀ q ∈ qe, q.event_type = ET_instant) ∧
       tr.length + qe.length =
         ((recompute c2w).events.filter (fun e =>
           decide (e.type ≠ PET_begin) &&
           target_open_ended (recompute c2w).defs e.n)).length) :=
  ⟨by decide, c2_instant_dispatch c2w (by decide)⟩

/-! ### Claim C1: stepping twice to the same time -/

/-- Taking as many elements as `takeWhile` keeps recovers `takeWhile`. -/
theorem take_length_takeWhile {α : Type} (l : List α) (p : α → Bool) :
    l.take (l.takeWhile p).length = l.takeWhile p := by
  induction l with
  | nil => rfl
  | cons a l ih =>
    by_cases h : p a = true
    · simp [List.takeWhile_cons, h, ih]
    · simp [List.takeWhile_cons, h]

/-- Dropping as many elements as `takeWhile` keeps gives `dropWhile`. -/
theorem drop_length_takeWhile {α : Type} (l : List α) (p : α → Bool) :
    l.drop (l.takeWhile p).length = l.dropWhile p := by
  induction l with
  | nil => rfl
  | cons a l ih =>
    by_cases h : p a = true
    · simp [List.takeWhile_cons, List.dropWhile_cons, h, ih]
    · simp [List.takeWhile_cons, List.dropWhile_cons, h]

/-- In a list sorted by time, everything left after dropping the prefix of
events at or before `now` lies strictly after `now`. -/
theorem sorted_dropWhile_gt (l : List PlaybackEvent) (now : Int)
    (hs : l.Pairwise fun a b => a.time ≤ b.time) :
    ∀ e ∈ l.dropWhile (fun e => decide (e.time ≤ now)), now < e.time := by
  induction l with
  | nil => simp [List.dropWhile]
  | cons a l ih =>
    rcases List.pairwise_cons.mp hs with ⟨hall, htail⟩
    by_cases h : a.time ≤ now
    · rw [List.dropWhile_cons, if_pos (by simpa using h)]
      exact ih htail
    · rw [List.dropWhile_cons, if_neg (by simpa using h)]
      intro e he
      rcases List.mem_cons.mp he with rfl | he
      · exact Int.not_le.mp h
      · exact lt_of_lt_of_le (Int.not_le.mp h) (hall e he)

/-- In a list sorted by decreasing time, everything left after dropping the
prefix of events strictly after `now` lies at or before `now`. -/
theorem rsorted_dropWhile_le (l : List PlaybackEvent) (now : Int)
    (hs : l.Pairwise fun a b => b.time ≤ a.time) :
    ∀ e ∈ l.dropWhile (fun e => decide (now < e.time)), e.time ≤ now := by
  induction l with
  | nil => simp [List.dropWhile]
  | cons a l ih =>
    rcases List.pairwise_cons.mp hs with ⟨hall, htail⟩
    by_cases h : now < a.time
    · rw [List.dropWhile_cons, if_pos (by simpa using h)]
      exact ih htail
    · rw [List.dropWhile_cons, if_neg (by simpa using h)]
      intro e he
      rcases List.mem_cons.mp he with rfl | he
      · exact Int.not_lt.mp h
      · exact le_trans (hall e he) (Int.not_lt.mp h)

/-- After a forward scan from a position whose prefix is all at or before
`now`, the prefix before the new cursor is all at or before `now` and the
suffix after it is all strictly after `now`. -/
theorem settled_of_forward_scan (L : List PlaybackEvent) (n : Nat) (now : Int)
    (hsort : L.Pairwise fun a b => a.time ≤ b.time)
    (htake : ∀ e ∈ L.take n, e.time ≤ now) :
    (∀ e ∈ L.take (n + ((L.drop n).takeWhile
        (fun e => decide (e.time ≤ now))).length), e.time ≤ now) ∧
    (∀ e ∈ L.drop (n + ((L.drop n).takeWhile
        (fun e => decide (e.time ≤ now))).length), now < e.time) := by
  constructor
  · intro e he
    rw [List.take_add] at he
    rcases List.mem_append.mp he with he | he
    · exact htake e he
    · rw [take_length_takeWhile] at he
      have := List.mem_takeWhile_imp he
      simpa using this
  · intro e he
    have hdd : L.drop (n + ((L.drop n).takeWhile
        (fun e => decide (e.time ≤ now))).length) =
        (L.drop n).drop (((L.drop n).takeWhile
          (fun e => decide (e.time ≤ now))).length) := by
      rw [List.drop_drop, Nat.add_comm]
    rw [hdd, drop_length_takeWhile] at he
    exact sorted_dropWhile_gt (L.drop n) now
      (hsort.sublist (List.drop_sublist n L)) e he

/-- After a backward scan from a position whose suffix is all strictly after
`now`, the prefix before the new cursor is all at or before `now` and the
suffix after it is all strictly after `now`. -/
theorem settled_of_reverse_scan (L : List PlaybackEvent) (n : Nat) (now : Int)
    (hsort : L.Pairwise fun a b => a.time ≤ b.time)
    (hle : n ≤ L.length)
    (hdrop : ∀ e ∈ L.drop n, now < e.time) :
    (∀ e ∈ L.take (n - ((L.take n).reverse.takeWhile
        (fun e => decide (now < e.time))).length), e.time ≤ now) ∧
    (∀ e ∈ L.drop (n - ((L.take n).reverse.takeWhile
        (fun e => decide (now < e.time))).length), now < e.time) := by
  have hTlen : (L.take n).length = n := by
    rw [List.length_take]
    omega
  have hrlen : (L.take n).reverse.length = n := by
    rw [List.length_reverse, hTlen]
  have hrsort : (L.take n).reverse.Pairwise (fun a b => b.time ≤ a.time) := by
    rw [List.pairwise_reverse]
    exact hsort.sublist (List.take_sublist n L)
  have hc : ((L.take n).reverse.takeWhile
      (fun e => decide (now < e.time))).length ≤ n := by
    calc ((L.take n).reverse.takeWhile (fun e => decide (now < e.time))).length
        ≤ (L.take n).reverse.length :=
          ((L.take n).reverse.takeWhile_sublist _).length_le
      _ = n := hrlen
  constructor
  · intro e he
    have h1 : L.take (n - ((L.take n).reverse.takeWhile
        (fun e => decide (now < e.time))).length) =
        (L.take n).take (n - ((L.take n).reverse.takeWhile
          (fun e => decide (now < e.time))).length) := by
      rw [List.take_take, min_eq_left (Nat.sub_le n _)]
    have h2 : (L.take n).take (n - ((L.take n).reverse.takeWhile
        (fun e => decide (now < e.time))).length) =
        ((L.take n).reverse.drop (((L.take n).reverse.takeWhile
          (fun e => decide (now < e.time))).length)).reverse := by
      rw [List.reverse_drop, List.reverse_reverse, hrlen]
    rw [h1, h2, drop_length_takeWhile] at he
    exact rsorted_dropWhile_le (L.take n).reverse now hrsort e
      (List.mem_reverse.mp he)
  · intro e he
    have key : ∀ m : Nat, m ≤ n →
        L.drop m = (L.take n).drop m ++ L.drop n := by
      intro m hm
      conv_lhs => rw [← List.take_append_drop n L]
      rw [List.drop_append_eq_append_drop, hTlen,
        Nat.sub_eq_zero_of_le hm, List.drop_zero]
    have hsplit := key _ (Nat.sub_le n (((L.take n).reverse.takeWhile
      (fun e => decide (now < e.time))).length))
    rw [hsplit] at he
    rcases List.mem_append.mp he with he | he
    · have h2 : (L.take n).drop (n - ((L.take n).reverse.takeWhile
          (fun e => decide (now < e.time))).length) =
          ((L.take n).reverse.take (((L.take n).reverse.takeWhile
            (fun e => decide (now < e.time))).length)).reverse :=
        ((@List.reverse_take _ (L.take n).reverse (((L.take n).reverse.takeWhile
          (fun e => decide (now < e.time))).length)).trans
          (by rw [List.reverse_reverse, hrlen])).symm
      rw [h2, take_length_takeWhile] at he
      have := List.mem_takeWhile_imp (List.mem_reverse.mp he)
      simpa using this
    · exact hdrop e he

/-- `do_event_forward` leaves the schedule, the cursor and the clock alone. -/
theorem do_event_forward_keeps (s : MetaState) (e : PlaybackEvent)
    (na : List ActiveKey) (i : Bool) :
    (do_event_forward s e na i).1.events = s.events ∧
    (do_event_forward s e na i).1.defs = s.defs ∧
    (do_event_forward s e na i).1.next_event_index = s.next_event_index ∧
    (do_event_forward s e na i).1.curr_t = s.curr_t ∧
    (do_event_forward s e na i).1.precision = s.precision := by
  unfold do_event_forward
  cases htype : e.type with
  | PET_begin =>
    dsimp only
    split_ifs <;> exact ⟨rfl, rfl, rfl, rfl, rfl⟩
  | PET_end =>
    dsimp only
    split_ifs
    · rcases enqueue_event_cases s e.n ET_instant i 0 with h | h | h | h <;>
        rw [h] <;> exact ⟨rfl, rfl, rfl, rfl, rfl⟩
    · rcases enqueue_event_cases
          { s with active := active_erase s.active (e.begin_time, e.n) }
          e.n ET_finalize i 0 with h | h | h | h <;>
        rw [h] <;> exact ⟨rfl, rfl, rfl, rfl, rfl⟩
    · rcases enqueue_event_cases s e.n ET_finalize i 0 with h | h | h | h <;>
        rw [h] <;> exact ⟨rfl, rfl, rfl, rfl, rfl⟩
  | PET_instant =>
    dsimp only
    split_ifs
    · exact ⟨rfl, rfl, rfl, rfl, rfl⟩
    · exact ⟨rfl, rfl, rfl, rfl, rfl⟩
    · exact ⟨rfl, rfl, rfl, rfl, rfl⟩
    · rcases enqueue_event_cases s e.n ET_instant i 0 with h | h | h | h <;>
        rw [h] <;> exact ⟨rfl, rfl, rfl, rfl, rfl⟩

/-- `do_event_reverse` leaves the schedule, the cursor and the clock alone. -/
theorem do_event_reverse_keeps (s : MetaState) (e : PlaybackEvent)
    (na : List ActiveKey) (i : Bool) :
    (do_event_reverse s e na i).1.events = s.events ∧
    (do_event_reverse s e na i).1.defs = s.defs ∧
    (do_event_reverse s e na i).1.next_event_index = s.next_event_index ∧
    (do_event_reverse s e na i).1.curr_t = s.curr_t ∧
    (do_event_reverse s e na i).1.precision = s.precision := by
  unfold do_event_reverse
  cases htype : e.type with
  | PET_begin =>
    dsimp only
    split_ifs
    · exact ⟨rfl, rfl, rfl, rfl, rfl⟩
    · rcases enqueue_event_cases s e.n ET_reverse_instant i 0
        with h | h | h | h <;>
        rw [h] <;> exact ⟨rfl, rfl, rfl, rfl, rfl⟩
    · rcases enqueue_event_cases
          { s with active := active_erase s.active (e.time, e.n) }
          e.n ET_reverse_finalize i 0 with h | h | h | h <;>
        rw [h] <;> exact ⟨rfl, rfl, rfl, rfl, rfl⟩
    · rcases enqueue_event_cases s e.n ET_reverse_finalize i 0
        with h | h | h | h <;>
        rw [h] <;> exact ⟨rfl, rfl, rfl, rfl, rfl⟩
  | PET_end =>
    dsimp only
    split_ifs <;> exact ⟨rfl, rfl, rfl, rfl, rfl⟩
  | PET_instant =>
    dsimp only
    split_ifs
    · exact ⟨rfl, rfl, rfl, rfl, rfl⟩
    · exact ⟨rfl, rfl, rfl, rfl, rfl⟩
    · exact ⟨rfl, rfl, rfl, rfl, rfl⟩
    · rcases enqueue_event_cases s e.n ET_reverse_instant i 0
        with h | h | h | h <;>
        rw [h] <;> exact ⟨rfl, rfl, rfl, rfl, rfl⟩

/-- The forward scan leaves the schedule, the cursor and the clock alone. -/
theorem scan_forward_keeps (l : List PlaybackEvent) (s : MetaState) (b : Bool)
    (now : Int) (na : List ActiveKey) (i : Bool) :
    (scan_forward s l b now na i).1.events = s.events ∧
    (scan_forward s l b now na i).1.defs = s.defs ∧
    (scan_forward s l b now na i).1.next_event_index = s.next_event_index ∧
    (scan_forward s l b now na i).1.curr_t = s.curr_t ∧
    (scan_forward s l b now na i).1.precision = s.precision := by
  induction l generalizing s na with
  | nil => exact ⟨rfl, rfl, rfl, rfl, rfl⟩
  | cons e rest ih =>
    rw [scan_forward]
    split_ifs with h
    · exact ⟨rfl, rfl, rfl, rfl, rfl⟩
    · dsimp only
      rcases ih (do_event_forward s e na i).1 (do_event_forward s e na i).2
        with ⟨h1, h2, h3, h4, h5⟩
      rcases do_event_forward_keeps s e na i with ⟨g1, g2, g3, g4, g5⟩
      exact ⟨h1.trans g1, h2.trans g2, h3.trans g3, h4.trans g4, h5.trans g5⟩

/-- The backward scan leaves the schedule, the cursor and the clock alone. -/
theorem scan_reverse_keeps (l : List PlaybackEvent) (s : MetaState) (b : Bool)
    (now : Int) (na : List ActiveKey) (i : Bool) :
    (scan_reverse s l b now na i).1.events = s.events ∧
    (scan_reverse s l b now na i).1.defs = s.defs ∧
    (scan_reverse s l b now na i).1.next_event_index = s.next_event_index ∧
    (scan_reverse s l b now na i).1.curr_t = s.curr_t ∧
    (scan_reverse s l b now na i).1.precision = s.precision := by
  induction l generalizing s na with
  | nil => exact ⟨rfl, rfl, rfl, rfl, rfl⟩
  | cons e rest ih =>
    rw [scan_reverse]
    split_ifs with h
    · exact ⟨rfl, rfl, rfl, rfl, rfl⟩
    · dsimp only
      rcases ih (do_event_reverse s e na i).1 (do_event_reverse s e na i).2
        with ⟨h1, h2, h3, h4, h5⟩
      rcases do_event_reverse_keeps s e na i with ⟨g1, g2, g3, g4, g5⟩
      exact ⟨h1.trans g1, h2.trans g2, h3.trans g3, h4.trans g4, h5.trans g5⟩

/-- The bounded forward scan consumes exactly the events at or before `now`
at the head of the list. -/
theorem scan_forward_consumed (l : List PlaybackEvent) (s : MetaState)
    (now : Int) (na : List ActiveKey) (i : Bool) :
    (scan_forward s l true now na i).2.2 =
      (l.takeWhile (fun e => decide (e.time ≤ now))).length := by
  induction l generalizing s na with
  | nil => rfl
  | cons e rest ih =>
    rw [scan_forward, List.takeWhile_cons]
    by_cases h : e.time ≤ now
    · rw [if_neg (by simp [h]), if_pos (by simpa using h)]
      dsimp only
      rw [ih]
      simp
    · rw [if_pos ⟨rfl, h⟩, if_neg (by simpa using h)]
      rfl

/-- The bounded backward scan consumes exactly the events strictly after
`now` at the head of the (reversed) list. -/
theorem scan_reverse_consumed (l : List PlaybackEvent) (s : MetaState)
    (now : Int) (na : List ActiveKey) (i : Bool) :
    (scan_reverse s l true now na i).2.2 =
      (l.takeWhile (fun e => decide (now < e.time))).length := by
  induction l generalizing s na with
  | nil => rfl
  | cons e rest ih =>
    rw [scan_reverse, List.takeWhile_cons]
    by_cases h : now < e.time
    · rw [if_neg (by simp [h]), if_pos (by simpa using h)]
      dsimp only
      rw [ih]
      simp
    · rw [if_pos ⟨rfl, h⟩, if_neg (by simpa using h)]
      rfl

/-- A bounded backward scan over events all at or before `now` stops at
once, touching nothing. -/
theorem scan_reverse_stop (s : MetaState) (l : List PlaybackEvent) (now : Int)
    (h : ∀ e ∈ l, e.time ≤ now) :
    scan_reverse s l true now [] false = (s, [], 0) := by
  cases l with
  | nil => rfl
  | cons e rest =>
    rw [scan_reverse,
      if_pos ⟨rfl, Int.not_lt.mpr (h e (List.mem_cons_self e rest))⟩]

/-- Re-stepping the still-active intervals only appends `ET_step` dispatches
to the trace and the deferred queue. -/
theorem active_steps_fold (l : List ActiveKey) (s : MetaState) (now : Int) :
    ∃ tr qe,
      (l.foldl (fun acc k =>
        enqueue_event acc k.2 ET_step false (now - k.1)) s).defs = s.defs ∧
      (l.foldl (fun acc k =>
        enqueue_event acc k.2 ET_step false (now - k.1)) s).events
        = s.events ∧
      (l.foldl (fun acc k =>
        enqueue_event acc k.2 ET_step false (now - k.1)) s).active
        = s.active ∧
      (l.foldl (fun acc k =>
        enqueue_event acc k.2 ET_step false (now - k.1)) s).next_event_index
        = s.next_event_index ∧
      (l.foldl (fun acc k =>
        enqueue_event acc k.2 ET_step false (now - k.1)) s).curr_t
        = s.curr_t ∧
      (l.foldl (fun acc k =>
        enqueue_event acc k.2 ET_step false (now - k.1)) s).precision
        = s.precision ∧
      (l.foldl (fun acc k =>
        enqueue_event acc k.2 ET_step false (now - k.1)) s).trace
        = s.trace ++ tr ∧
      (l.foldl (fun acc k =>
        enqueue_event acc k.2 ET_step false (now - k.1)) s).event_queue
        = s.event_queue ++ qe ∧
      (∀ c ∈ tr, c.2.1 = ET_step) ∧
      (∀ q ∈ qe, q.event_type = ET_step) := by
  induction l generalizing s with
  | nil =>
    exact ⟨[], [], rfl, rfl, rfl, rfl, rfl, rfl, by simp, by simp,
      by simp, by simp⟩
  | cons k rest ih =>
    rw [List.foldl_cons]
    rcases enqueue_event_cases s k.2 ET_step false (now - k.1)
      with h | h | h | h <;> rw [h]
    · exact ih s
    · obtain ⟨tr, qe, h1, h2, h3, h4, h5, h6, h7, h8, h9, h10⟩ :=
        ih { s with assert_failed := true }
      exact ⟨tr, qe, h1, h2, h3, h4, h5, h6, h7, h8, h9, h10⟩
    · obtain ⟨tr, qe, h1, h2, h3, h4, h5, h6, h7, h8, h9, h10⟩ :=
        ih { s with trace := s.trace ++
          [(k.2, ET_step, int_to_double_time s.precision (now - k.1))] }
      refine ⟨(k.2, ET_step, int_to_double_time s.precision (now - k.1)) :: tr,
        qe, h1, h2, h3, h4, h5, h6, ?_, h8, ?_, h10⟩
      · rw [h7]
        simp
      · intro c hc
        rcases List.mem_cons.mp hc with hc | hc
        · rw [hc]
        · exact h9 c hc
    · obtain ⟨tr, qe, h1, h2, h3, h4, h5, h6, h7, h8, h9, h10⟩ :=
        ih { s with event_queue := s.event_queue ++ [⟨k.2, ET_step, now - k.1⟩] }
      refine ⟨tr, (⟨k.2, ET_step, now - k.1⟩ : EventQueueEntry) :: qe,
        h1, h2, h3, h4, h5, h6, h7, ?_, h9, ?_⟩
      · rw [h8]
        simp
      · intro q hq
        rcases List.mem_cons.mp hq with hq | hq
        · rw [hq]
        · exact h10 q hq

/-- The newly-active fold of `finish_events_forward` and
`finish_events_reverse` leaves the schedule, the cursor and the clock
alone. -/
theorem na_fold_keeps (na : List ActiveKey) (s : MetaState) (now : Int)
    (et : EventType) :
    ((na.foldl (fun acc k =>
      if k ∈ (enqueue_event acc k.2 et false (now - k.1)).active
      then { enqueue_event acc k.2 et false (now - k.1) with
               assert_failed := true }
      else { enqueue_event acc k.2 et false (now - k.1) with
               active := (enqueue_event acc k.2 et false (now - k.1)).active
                 ++ [k] }) s)).events = s.events ∧
    ((na.foldl (fun acc k =>
      if k ∈ (enqueue_event acc k.2 et false (now - k.1)).active
      then { enqueue_event acc k.2 et false (now - k.1) with
               assert_failed := true }
      else { enqueue_event acc k.2 et false (now - k.1) with
               active := (enqueue_event acc k.2 et false (now - k.1)).active
                 ++ [k] }) s)).defs = s.defs ∧
    ((na.foldl (fun acc k =>
      if k ∈ (enqueue_event acc k.2 et false (now - k.1)).active
      then { enqueue_event acc k.2 et false (now - k.1) with
               assert_failed := true }
      else { enqueue_event acc k.2 et false (now - k.1) with
               active := (enqueue_event acc k.2 et false (now - k.1)).active
                 ++ [k] }) s)).next_event_index = s.next_event_index ∧
    ((na.foldl (fun acc k =>
      if k ∈ (enqueue_event acc k.2 et false (now - k.1)).active
      then { enqueue_event acc k.2 et false (now - k.1) with
               assert_failed := true }
      else { enqueue_event acc k.2 et false (now - k.1) with
               active := (enqueue_event acc k.2 et false (now - k.1)).active
                 ++ [k] }) s)).precision = s.precision := by
  induction na generalizing s with
  | nil => exact ⟨rfl, rfl, rfl, rfl⟩
  | cons k rest ih =>
    rw [List.foldl_cons]
    rcases enqueue_event_keeps s k.2 et false (now - k.1)
      with ⟨g1, g2, g3, g4, g5, g6, g7⟩
    split_ifs with h
    · obtain ⟨h1, h2, h3, h4⟩ := ih
        { enqueue_event s k.2 et false (now - k.1) with
            assert_failed := true }
      exact ⟨h1.trans g2, h2.trans g1, h3.trans g4, h4.trans g6⟩
    · obtain ⟨h1, h2, h3, h4⟩ := ih
        { enqueue_event s k.2 et false (now - k.1) with
            active := (enqueue_event s k.2 et false (now - k.1)).active
              ++ [k] }
      exact ⟨h1.trans g2, h2.trans g1, h3.trans g4, h4.trans g6⟩

/-- `finish_events_forward` leaves the schedule and the cursor alone. -/
theorem finish_forward_keeps (s : MetaState) (now : Int)
    (na : List ActiveKey) :
    (finish_events_forward s now na).events = s.events ∧
    (finish_events_forward s now na).defs = s.defs ∧
    (finish_events_forward s now na).next_event_index = s.next_event_index ∧
    (finish_events_forward s now na).precision = s.precision := by
  obtain ⟨tr, qe, h1, h2, h3, h4, h5, h6, h7, h8, h9, h10⟩ :=
    active_steps_fold s.active s now
  obtain ⟨g1, g2, g3, g4⟩ := na_fold_keeps na
    (s.active.foldl (fun acc k =>
      enqueue_event acc k.2 ET_step false (now - k.1)) s) now ET_init
  exact ⟨g1.trans h2, g2.trans h1, g3.trans h4, g4.trans h6⟩

/-- `finish_events_reverse` leaves the schedule and the cursor alone. -/
theorem finish_reverse_keeps (s : MetaState) (now : Int)
    (na : List ActiveKey) :
    (finish_events_reverse s now na).events = s.events ∧
    (finish_events_reverse s now na).defs = s.defs ∧
    (finish_events_reverse s now na).next_event_index = s.next_event_index ∧
    (finish_events_reverse s now na).precision = s.precision := by
  obtain ⟨tr, qe, h1, h2, h3, h4, h5, h6, h7, h8, h9, h10⟩ :=
    active_steps_fold s.active s now
  obtain ⟨g1, g2, g3, g4⟩ := na_fold_keeps na
    (s.active.foldl (fun acc k =>
      enqueue_event acc k.2 ET_step false (now - k.1)) s) now ET_reverse_init
  exact ⟨g1.trans h2, g2.trans h1, g3.trans h4, g4.trans h6⟩

/-- `finish_events_reverse` with no newly-active intervals only re-steps the
still-active set. -/
theorem finish_reverse_nil_spec (s : MetaState) (now : Int) :
    ∃ tr qe,
      (finish_events_reverse s now []).defs = s.defs ∧
      (finish_events_reverse s now []).events = s.events ∧
      (finish_events_reverse s now []).active = s.active ∧
      (finish_events_reverse s now []).next_event_index
        = s.next_event_index ∧
      (finish_events_reverse s now []).curr_t = s.curr_t ∧
      (finish_events_reverse s now []).precision = s.precision ∧
      (finish_events_reverse s now []).trace = s.trace ++ tr ∧
      (finish_events_reverse s now []).event_queue = s.event_queue ++ qe ∧
      (∀ c ∈ tr, c.2.1 = ET_step) ∧
      (∀ q ∈ qe, q.event_type = ET_step) := by
  obtain ⟨tr, qe, h1, h2, h3, h4, h5, h6, h7, h8, h9, h10⟩ :=
    active_steps_fold s.active s now
  exact ⟨tr, qe, h1, h2, h3, h4, h5, h6, h7, h8, h9, h10⟩

/-- `step` in its forward branch: the schedule and clock precision are
unchanged, the new clock is `t`, and the cursor advances over exactly the
events at or before the quantized `t`. -/
theorem step_forward_eqns (s : MetaState) (t : ℚ) (e0 : PlaybackEvent)
    (hget : s.events.get? s.next_event_index = some e0)
    (he0 : e0.time ≤ double_to_int_time s.precision t) :
    (step s t).events = s.events ∧ (step s t).defs = s.defs ∧
    (step s t).precision = s.precision ∧ (step s t).curr_t = t ∧
    (step s t).next_event_index = s.next_event_index +
      ((s.events.drop s.next_event_index).takeWhile
        (fun e => decide (e.time ≤ double_to_int_time s.precision t))).length
    := by
  have hfwd : (match s.events.get? s.next_event_index with
      | some e => decide (e.time ≤ double_to_int_time s.precision t)
      | none => false) = true := by
    rw [hget]
    simpa using he0
  unfold step
  dsimp only
  rw [hfwd, if_pos rfl]
  refine ⟨?_, ?_, ?_, rfl, ?_⟩
  · exact (finish_forward_keeps _ _ _).1.trans
      (scan_forward_keeps _ _ _ _ _ _).1
  · exact (finish_forward_keeps _ _ _).2.1.trans
      (scan_forward_keeps _ _ _ _ _ _).2.1
  · exact (finish_forward_keeps _ _ _).2.2.2.trans
      (scan_forward_keeps _ _ _ _ _ _).2.2.2.2
  · exact (finish_forward_keeps _ _ _).2.2.1.trans
      (by dsimp only; rw [scan_forward_consumed])

/-- `step` in its backward branch: the schedule and clock precision are
unchanged, the new clock is `t`, and the cursor retreats over exactly the
trailing prefix events strictly after the quantized `t`. -/
theorem step_reverse_eqns (s : MetaState) (t : ℚ)
    (hfwd : (match s.events.get? s.next_event_index with
      | some e => decide (e.time ≤ double_to_int_time s.precision t)
      | none => false) = false) :
    (step s t).events = s.events ∧ (step s t).defs = s.defs ∧
    (step s t).precision = s.precision ∧ (step s t).curr_t = t ∧
    (step s t).next_event_index = s.next_event_index -
      ((s.events.take s.next_event_index).reverse.takeWhile
        (fun e => decide (double_to_int_time s.precision t < e.time))).length
    := by
  unfold step
  dsimp only
  rw [hfwd, if_neg (by simp)]
  refine ⟨?_, ?_, ?_, rfl, ?_⟩
  · exact (finish_reverse_keeps _ _ _).1.trans
      (scan_reverse_keeps _ _ _ _ _ _).1
  · exact (finish_reverse_keeps _ _ _).2.1.trans
      (scan_reverse_keeps _ _ _ _ _ _).2.1
  · exact (finish_reverse_keeps _ _ _).2.2.2.trans
      (scan_reverse_keeps _ _ _ _ _ _).2.2.2.2
  · exact (finish_reverse_keeps _ _ _).2.2.1.trans
      (by dsimp only; rw [scan_reverse_consumed])

/-- After any `step` from a sorted schedule with a cursor in range, the
cursor sits exactly at the boundary of the quantized `t`: everything before
it is at or before `t`, everything after it strictly after. -/
theorem step_position (s : MetaState) (t : ℚ)
    (hsort : s.events.Pairwise fun a b => a.time ≤ b.time)
    (hle : s.next_event_index ≤ s.events.length) :
    (step s t).events = s.events ∧
    (step s t).defs = s.defs ∧
    (step s t).precision = s.precision ∧
    (step s t).curr_t = t ∧
    (step s t).next_event_index ≤ s.events.length ∧
    (∀ e ∈ s.events.take (step s t).next_event_index,
      e.time ≤ double_to_int_time s.precision t) ∧
    (∀ e ∈ s.events.drop (step s t).next_event_index,
      double_to_int_time s.precision t < e.time) := by
  cases hget : s.events.get? s.next_event_index with
  | none =>
    have hfwd : (match s.events.get? s.next_event_index with
        | some e => decide (e.time ≤ double_to_int_time s.precision t)
        | none => false) = false := by
      rw [hget]
    obtain ⟨h1, h2, h3, h4, h5⟩ := step_reverse_eqns s t hfwd
    have hlen : s.events.length ≤ s.next_event_index :=
      List.get?_eq_none.mp hget
    have hdrop : ∀ e ∈ s.events.drop s.next_event_index,
        double_to_int_time s.precision t < e.time := by
      rw [List.drop_eq_nil_of_le hlen]
      simp
    obtain ⟨hp1, hp2⟩ := settled_of_reverse_scan s.events s.next_event_index
      (double_to_int_time s.precision t) hsort hle hdrop
    rw [h5]
    exact ⟨h1, h2, h3, h4, le_trans (Nat.sub_le _ _) hle, hp1, hp2⟩
  | some e0 =>
    obtain ⟨hlt, hgete⟩ := List.get?_eq_some.mp hget
    have hmem : e0 ∈ s.events.drop s.next_event_index := by
      rw [List.drop_eq_getElem_cons hlt]
      rw [List.get_eq_getElem] at hgete
      rw [hgete]
      exact List.mem_cons_self _ _
    by_cases he0 : e0.time ≤ double_to_int_time s.precision t
    · obtain ⟨h1, h2, h3, h4, h5⟩ := step_forward_eqns s t e0 hget he0
      have htake : ∀ e ∈ s.events.take s.next_event_index,
          e.time ≤ double_to_int_time s.precision t := by
        intro e he
        have hpa := List.pairwise_append.mp
          ((List.take_append_drop s.next_event_index s.events).symm ▸ hsort)
        exact le_trans (hpa.2.2 e he e0 hmem) he0
      obtain ⟨hp1, hp2⟩ := settled_of_forward_scan s.events s.next_event_index
        (double_to_int_time s.precision t) hsort htake
      have hbound : (step s t).next_event_index ≤ s.events.length := by
        rw [h5]
        have hsub : List.length ((s.events.drop s.next_event_index).takeWhile
              (fun e => decide (e.time ≤ double_to_int_time s.precision t)))
            ≤ (s.events.drop s.next_event_index).length :=
          List.Sublist.length_le (List.takeWhile_sublist _)
        have hdl : (s.events.drop s.next_event_index).length =
            s.events.length - s.next_event_index := List.length_drop _ _
        omega
      rw [h5]
      exact ⟨h1, h2, h3, h4, h5 ▸ hbound, hp1, hp2⟩
    · have hfwd : (match s.events.get? s.next_event_index with
          | some e => decide (e.time ≤ double_to_int_time s.precision t)
          | none => false) = false := by
        rw [hget]
        simpa using he0
      obtain ⟨h1, h2, h3, h4, h5⟩ := step_reverse_eqns s t hfwd
      have hdrop : ∀ e ∈ s.events.drop s.next_event_index,
          double_to_int_time s.precision t < e.time := by
        intro e he
        have hds : (s.events.drop s.next_event_index).Pairwise
            (fun a b => a.time ≤ b.time) :=
          hsort.sublist (List.drop_sublist _ _)
        rw [List.drop_eq_getElem_cons hlt] at he hds
        rw [List.get_eq_getElem] at hgete
        rw [hgete] at he hds
        rcases List.mem_cons.mp he with rfl | he
        · exact Int.not_le.mp he0
        · exact lt_of_lt_of_le (Int.not_le.mp he0)
            ((List.pairwise_cons.mp hds).1 e he)
      obtain ⟨hp1, hp2⟩ := settled_of_reverse_scan s.events s.next_event_index
        (double_to_int_time s.precision t) hsort hle hdrop
      rw [h5]
      exact ⟨h1, h2, h3, h4, le_trans (Nat.sub_le _ _) hle, hp1, hp2⟩

/-- Stepping a state whose cursor already sits at the boundary of the
quantized `t` does no event work: the cursor, the active set and the
schedule are untouched, and the only dispatches are `ET_step` re-steps of
the still-active intervals. -/
theorem step_settled (s : MetaState) (t : ℚ)
    (hP1 : ∀ e ∈ s.events.take s.next_event_index,
      e.time ≤ double_to_int_time s.precision t)
    (hP2 : ∀ e ∈ s.events.drop s.next_event_index,
      double_to_int_time s.precision t < e.time) :
    (step s t).events = s.events ∧ (step s t).defs = s.defs ∧
    (step s t).next_event_index = s.next_event_index ∧
    (step s t).active = s.active ∧ (step s t).curr_t = t ∧
    (step s t).precision = s.precision ∧
    ∃ tr qe,
      (step s t).trace = s.trace ++ tr ∧
      (step s t).event_queue = s.event_queue ++ qe ∧
      (∀ c ∈ tr, c.2.1 = ET_step) ∧
      (∀ q ∈ qe, q.event_type = ET_step) := by
  have hfwd : (match s.events.get? s.next_event_index with
      | some e => decide (e.time ≤ double_to_int_time s.precision t)
      | none => false) = false := by
    cases hget : s.events.get? s.next_event_index with
    | none => rfl
    | some e0 =>
      obtain ⟨hlt, hgete⟩ := List.get?_eq_some.mp hget
      have hmem : e0 ∈ s.events.drop s.next_event_index := by
        rw [List.drop_eq_getElem_cons hlt]
        rw [List.get_eq_getElem] at hgete
        rw [hgete]
        exact List.mem_cons_self _ _
      have := hP2 e0 hmem
      simp
      omega
  have hstop : scan_reverse s ((s.events.take s.next_event_index).reverse)
      true (double_to_int_time s.precision t) [] false = (s, [], 0) :=
    scan_reverse_stop s _ _ (fun e he => hP1 e (List.mem_reverse.mp he))
  unfold step
  dsimp only
  rw [hfwd, if_neg (by simp), hstop]
  dsimp only
  obtain ⟨tr, qe, h1, h2, h3, h4, h5, h6, h7, h8, h9, h10⟩ :=
    finish_reverse_nil_spec
      { s with next_event_index := s.next_event_index - 0 }
      (double_to_int_time s.precision t)
  exact ⟨h2, h1, h4.trans (Nat.sub_zero _), h3, rfl, h6, tr, qe, h7, h8,
    h9, h10⟩

/-- Claim C1 (amended): calling `step(t)` again immediately after `step(t)`
on a sorted schedule leaves the schedule, cursor, clock and active set
unchanged and dispatches nothing except `ET_step` re-steps of the intervals
still in the active set — the second call is **not** a complete no-op. -/
theorem c1_second_step_only_steps (s : MetaState) (t : ℚ)
    (hsort : s.events.Pairwise fun a b => a.time ≤ b.time)
    (hle : s.next_event_index ≤ s.events.length) :
    (step (step s t) t).events = (step s t).events ∧
    (step (step s t) t).defs = (step s t).defs ∧
    (step (step s t) t).next_event_index = (step s t).next_event_index ∧
    (step (step s t) t).active = (step s t).active ∧
    (step (step s t) t).curr_t = (step s t).curr_t ∧
    ∃ tr qe,
      (step (step s t) t).trace = (step s t).trace ++ tr ∧
      (step (step s t) t).event_queue = (step s t).event_queue ++ qe ∧
      (∀ c ∈ tr, c.2.1 = ET_step) ∧
      (∀ q ∈ qe, q.event_type = ET_step) := by
  obtain ⟨h1, h2, h3, h4, h5, hp1, hp2⟩ := step_position s t hsort hle
  have hP1 : ∀ e ∈ (step s t).events.take (step s t).next_event_index,
      e.time ≤ double_to_int_time (step s t).precision t := by
    rw [h1, h3]
    exact hp1
  have hP2 : ∀ e ∈ (step s t).events.drop (step s t).next_event_index,
      double_to_int_time (step s t).precision t < e.time := by
    rw [h1, h3]
    exact hp2
  obtain ⟨g1, g2, g3, g4, g5, g6, tr, qe, q1, q2, q3, q4⟩ :=
    step_settled (step s t) t hP1 hP2
  exact ⟨g1, g2, g3, g4, g5.trans h4.symm, tr, qe, q1, q2, q3, q4⟩

/-- One open-ended native action of duration 2, initialized at time 0. -/
def c1s0 : MetaState :=
  initializeAt (add_c_interval (mkMeta 1) (some ⟨2, true⟩) 0 RS_level_begin).1
    0

/-- Counterexample to claim C1 as stated: after `initialize(0)` and
`step(1)`, a second `step(1)` is not a no-op — it re-dispatches an
`ET_step` callback to the active interval, so the trace grows. -/
theorem c1_counterexample :
    (step (step c1s0 1) 1).trace = (step c1s0 1).trace ++ [(0, ET_step, 1)] ∧
    (step (step c1s0 1) 1).trace ≠ (step c1s0 1).trace := by
  decide

/-- Witness for claim C1 at a concrete schedule. -/
theorem c1_witness :
    (c1s0.events.Pairwise (fun a b => a.time ≤ b.time) ∧
      c1s0.next_event_index ≤ c1s0.events.length) ∧
    ((step (step c1s0 1) 1).events = (step c1s0 1).events ∧
     (step (step c1s0 1) 1).defs = (step c1s0 1).defs ∧
     (step (step c1s0 1) 1).next_event_index
       = (step c1s0 1).next_event_index ∧
     (step (step c1s0 1) 1).active = (step c1s0 1).active ∧
     (step (step c1s0 1) 1).curr_t = (step c1s0 1).curr_t ∧
     ∃ tr qe,
       (step (step c1s0 1) 1).trace = (step c1s0 1).trace ++ tr ∧
       (step (step c1s0 1) 1).event_queue
         = (step c1s0 1).event_queue ++ qe ∧
       (∀ c ∈ tr, c.2.1 = ET_step) ∧
       (∀ q ∈ qe, q.event_type = ET_step)) :=
  ⟨⟨by decide, by decide⟩,
    c1_second_step_only_steps c1s0 1 (by decide) (by decide)⟩

/-! ### Claim C3: skip suppression during initialize -/

/-- The shapes the pending compiled events of definition `k` (paired with
the `k`-keys of the scratch active list) can take while the forward scan of
`initialize` runs: nothing left; a single instant; a begin/end pair still
untouched; or the end alone with its begin already on the scratch list. -/
def kok (k : Nat) (bt et : Int) (pat : List PlaybackEvent)
    (keys : List ActiveKey) : Prop :=
  (pat = [] ∧ keys = []) ∨
  (pat = [⟨bt, k, PET_instant, bt⟩] ∧ keys = []) ∨
  (pat = [⟨bt, k, PET_begin, bt⟩, ⟨et, k, PET_end, bt⟩] ∧ keys = []) ∨
  (pat = [⟨et, k, PET_end, bt⟩] ∧ keys = [(bt, k)])

/-- `enqueue_event` for a definition other than `k` does not change the
`k`-dispatches on the trace or the queue. -/
theorem enqueue_kfilter (s : MetaState) (n : Nat) (et : EventType) (i : Bool)
    (T : Int) (k : Nat) (hnk : n ≠ k) :
    ((enqueue_event s n et i T).trace.filter (fun c => decide (c.1 = k))) =
      (s.trace.filter (fun c => decide (c.1 = k))) ∧
    ((enqueue_event s n et i T).event_queue.filter
      (fun q => decide (q.n = k))) =
      (s.event_queue.filter (fun q => decide (q.n = k))) := by
  rcases enqueue_event_cases s n et i T with h | h | h | h <;> rw [h] <;>
    exact ⟨by simp [hnk], by simp [hnk]⟩

/-- Erasing the sole `k`-key from an active list leaves no `k`-keys. -/
theorem active_erase_kfilter (na : List ActiveKey) (bt : Int) (k : Nat)
    (hkeys : na.filter (fun x => decide (x.2 = k)) = [(bt, k)]) :
    (active_erase na (bt, k)).filter (fun x => decide (x.2 = k)) = [] := by
  unfold active_erase
  rw [List.filter_filter]
  have hcomm : na.filter (fun a =>
      decide (a.2 = k) && decide (a ≠ (bt, k))) =
      (na.filter (fun x => decide (x.2 = k))).filter
        (fun x => decide (x ≠ (bt, k))) := by
    rw [List.filter_filter]
    exact List.filter_congr (fun x _ => Bool.and_comm _ _)
  rw [hcomm, hkeys]
  simp

/-- If the state's active set is empty, it stays empty across
`do_event_forward` (the loop only ever erases from it). -/
theorem do_event_forward_active_nil (s : MetaState) (e : PlaybackEvent)
    (na : List ActiveKey) (i : Bool) (hact : s.active = []) :
    (do_event_forward s e na i).1.active = [] := by
  unfold do_event_forward
  cases htype : e.type <;> dsimp only <;> split_ifs <;>
    first
    | exact hact
    | (rw [(enqueue_event_keeps _ _ _ _ _).2.2.1]
       exact hact)
    | (rw [(enqueue_event_keeps _ _ _ _ _).2.2.1]
       dsimp only
       rw [hact]
       rfl)

/-- Filtering the `k`-keys while also dropping a non-`k` key is the same as
filtering the `k`-keys alone. -/
theorem erase_kfilter_ne (na : List ActiveKey) (b : Int) (m k : Nat)
    (hnk : m ≠ k) :
    (na.filter (fun a => decide (a.2 = k) && decide (a ≠ (b, m)))) =
      (na.filter (fun x => decide (x.2 = k))) := by
  refine List.filter_congr ?_
  intro x _
  by_cases hxk : x.2 = k
  · have hxe : ¬ x = (b, m) := by
      intro hx
      rw [hx] at hxk
      exact hnk hxk
    simp [hxk, hxe]
  · simp [hxk]

/-- `do_event_forward` for an event of a definition other than `k` does not
change the `k`-keys of the scratch active list. -/
theorem do_event_forward_na_kfilter (s : MetaState) (e : PlaybackEvent)
    (na : List ActiveKey) (i : Bool) (k : Nat) (hnk : e.n ≠ k) :
    ((do_event_forward s e na i).2.filter (fun x => decide (x.2 = k))) =
      (na.filter (fun x => decide (x.2 = k))) := by
  unfold do_event_forward active_erase
  cases htype : e.type with
  | PET_begin =>
    dsimp only
    split_ifs <;> simp [hnk]
  | PET_end =>
    dsimp only
    split_ifs
    · rw [List.filter_filter]
      exact erase_kfilter_ne na e.begin_time e.n k hnk
    · rfl
    · rfl
  | PET_instant =>
    dsimp only
    split_ifs <;> rfl

/-- `do_event_forward` for an event of a definition other than `k` does not
change the `k`-dispatches on the trace or the queue. -/
theorem do_event_forward_kfilter (s : MetaState) (e : PlaybackEvent)
    (na : List ActiveKey) (i : Bool) (k : Nat) (hnk : e.n ≠ k) :
    ((do_event_forward s e na i).1.trace.filter (fun c => decide (c.1 = k)))
      = (s.trace.filter (fun c => decide (c.1 = k))) ∧
    ((do_event_forward s e na i).1.event_queue.filter
      (fun q => decide (q.n = k)))
      = (s.event_queue.filter (fun q => decide (q.n = k))) := by
  unfold do_event_forward
  cases htype : e.type <;> dsimp only <;> split_ifs <;>
    first
    | exact ⟨rfl, rfl⟩
    | exact enqueue_kfilter _ e.n _ i 0 k hnk
    | exact ⟨(enqueue_kfilter _ e.n _ i 0 k hnk).1,
        (enqueue_kfilter _ e.n _ i 0 k hnk).2⟩

/-- The forward scan of `initialize` never dispatches anything for a
non-open-ended action definition `k` whose compiled events all lie at or
before `now`: its instants and collapsed begin/end pairs are suppressed by
`enqueue_event`, and no `k`-key survives on the scratch active list. -/
theorem scan_forward_k_masked (k : Nat) (bt et : Int)
    (l : List PlaybackEvent) :
    ∀ (s : MetaState) (na : List ActiveKey) (now : Int),
      target_action s.defs k = true →
      target_open_ended s.defs k = false →
      s.active = [] →
      l.Pairwise (fun a b => a.time ≤ b.time) →
      (∀ e ∈ l, e.n = k → e.time ≤ now) →
      kok k bt et (l.filter (fun e => decide (e.n = k)))
        (na.filter (fun x => decide (x.2 = k))) →
      (scan_forward s l true now na true).1.active = [] ∧
      (scan_forward s l true now na true).1.defs = s.defs ∧
      ((scan_forward s l true now na true).2.1.filter
        (fun x => decide (x.2 = k))) = [] ∧
      ((scan_forward s l true now na true).1.trace.filter
        (fun c => decide (c.1 = k))) =
        (s.trace.filter (fun c => decide (c.1 = k))) ∧
      ((scan_forward s l true now na true).1.event_queue.filter
        (fun q => decide (q.n = k))) =
        (s.event_queue.filter (fun q => decide (q.n = k))) := by
  induction l with
  | nil =>
    intro s na now hdef hoe hact hsort hktime hok
    refine ⟨hact, rfl, ?_, rfl, rfl⟩
    rcases hok with ⟨_, hkeys⟩ | ⟨hpat, _⟩ | ⟨hpat, _⟩ | ⟨hpat, _⟩
    · exact hkeys
    · simp at hpat
    · simp at hpat
    · simp at hpat
  | cons e rest ih =>
    intro s na now hdef hoe hact hsort hktime hok
    rw [scan_forward]
    by_cases hstop : e.time ≤ now
    · rw [if_neg (by simp [hstop])]
      dsimp only
      have henq : enqueue_event s k ET_instant true 0 = s := by
        rcases enqueue_instant_cases s k hdef with ⟨_, hs⟩ | ⟨hoe2, _⟩
        · exact hs
        · rw [hoe] at hoe2
          exact absurd hoe2 (by decide)
      by_cases hek : e.n = k
      · have hfc : (e :: rest).filter (fun x => decide (x.n = k)) =
            e :: rest.filter (fun x => decide (x.n = k)) := by
          rw [List.filter_cons, if_pos (by simp [hek])]
        rcases hok with ⟨hpat, hkeys⟩ | ⟨hpat, hkeys⟩ | ⟨hpat, hkeys⟩ |
          ⟨hpat, hkeys⟩
        · rw [hfc] at hpat
          simp at hpat
        · -- single instant
          rw [hfc] at hpat
          obtain ⟨he, hrest⟩ := List.cons_eq_cons.mp hpat
          subst he
          have hnotna : ((bt, k) : ActiveKey) ∉ na := by
            intro hmem
            have hin : ((bt, k) : ActiveKey) ∈
                na.filter (fun x => decide (x.2 = k)) :=
              List.mem_filter.mpr ⟨hmem, by simp⟩
            rw [hkeys] at hin
            simp at hin
          have hde : do_event_forward s ⟨bt, k, PET_instant, bt⟩ na true =
              (s, na) := by
            unfold do_event_forward
            dsimp only
            rw [if_neg (by simp), if_neg hnotna,
              if_neg (by simp [hact]), henq]
          rw [hde]
          exact ih s na now hdef hoe hact (List.Pairwise.of_cons hsort)
            (fun x hx hxk => hktime x (List.mem_cons_of_mem _ hx) hxk)
            (Or.inl ⟨hrest, hkeys⟩)
        · -- begin of a pair
          rw [hfc] at hpat
          obtain ⟨he, hrest⟩ := List.cons_eq_cons.mp hpat
          subst he
          have hnotna : ((bt, k) : ActiveKey) ∉ na := by
            intro hmem
            have hin : ((bt, k) : ActiveKey) ∈
                na.filter (fun x => decide (x.2 = k)) :=
              List.mem_filter.mpr ⟨hmem, by simp⟩
            rw [hkeys] at hin
            simp at hin
          have hde : do_event_forward s ⟨bt, k, PET_begin, bt⟩ na true =
              (s, na ++ [(bt, k)]) := by
            unfold do_event_forward
            dsimp only
            rw [if_neg (by simp), if_neg (by simp [hact]), if_neg hnotna]
          rw [hde]
          exact ih s (na ++ [(bt, k)]) now hdef hoe hact
            (List.Pairwise.of_cons hsort)
            (fun x hx hxk => hktime x (List.mem_cons_of_mem _ hx) hxk)
            (Or.inr (Or.inr (Or.inr ⟨hrest,
              by rw [List.filter_append, hkeys]; simp⟩)))
        · -- pending end
          rw [hfc] at hpat
          obtain ⟨he, hrest⟩ := List.cons_eq_cons.mp hpat
          subst he
          have hmem : ((bt, k) : ActiveKey) ∈ na := by
            have hin : ((bt, k) : ActiveKey) ∈
                na.filter (fun x => decide (x.2 = k)) := by
              rw [hkeys]
              exact List.mem_singleton_self _
            exact (List.mem_filter.mp hin).1
          have hde : do_event_forward s ⟨et, k, PET_end, bt⟩ na true =
              (s, active_erase na (bt, k)) := by
            unfold do_event_forward
            dsimp only
            rw [if_pos hmem, henq]
          rw [hde]
          exact ih s (active_erase na (bt, k)) now hdef hoe hact
            (List.Pairwise.of_cons hsort)
            (fun x hx hxk => hktime x (List.mem_cons_of_mem _ hx) hxk)
            (Or.inl ⟨hrest, active_erase_kfilter na bt k hkeys⟩)
      · have hfc : (e :: rest).filter (fun x => decide (x.n = k)) =
            rest.filter (fun x => decide (x.n = k)) := by
          rw [List.filter_cons, if_neg (by simp [hek])]
        obtain ⟨d1, d2⟩ := do_event_forward_kfilter s e na true k hek
        have dna := do_event_forward_na_kfilter s e na true k hek
        have dact := do_event_forward_active_nil s e na true hact
        obtain ⟨i1, i2, i3, i4, i5⟩ := ih (do_event_forward s e na true).1
          (do_event_forward s e na true).2 now
          (by rw [(do_event_forward_keeps s e na true).2.1]; exact hdef)
          (by rw [(do_event_forward_keeps s e na true).2.1]; exact hoe)
          dact (List.Pairwise.of_cons hsort)
          (fun x hx hxk => hktime x (List.mem_cons_of_mem _ hx) hxk)
          (by rw [dna, ← hfc]; exact hok)
        exact ⟨i1, i2.trans (do_event_forward_keeps s e na true).2.1, i3,
          i4.trans d1, i5.trans d2⟩
    · rw [if_pos ⟨rfl, hstop⟩]
      refine ⟨hact, rfl, ?_, rfl, rfl⟩
      rcases hok with ⟨_, hkeys⟩ | ⟨_, hkeys⟩ | ⟨_, hkeys⟩ | ⟨hpat, hkeys⟩
      · exact hkeys
      · exact hkeys
      · exact hkeys
      · exfalso
        have hE : (⟨et, k, PET_end, bt⟩ : PlaybackEvent) ∈
            (e :: rest).filter (fun x => decide (x.n = k)) := by
          rw [hpat]
          exact List.mem_singleton_self _
        have hE2 := List.mem_filter.mp hE
        have hEt : (⟨et, k, PET_end, bt⟩ : PlaybackEvent).time ≤ now :=
          hktime _ hE2.1 rfl
        rcases List.mem_cons.mp hE2.1 with he | he
        · rw [← he] at hstop
          exact hstop hEt
        · exact hstop (le_trans ((List.pairwise_cons.mp hsort).1 _ he) hEt)

/-- The newly-active fold of `finish_events_forward` dispatches nothing for
definition `k` when no `k`-key is on the list. -/
theorem na_fold_kfilter (na : List ActiveKey) (s : MetaState) (now : Int)
    (et : EventType) (k : Nat) (hna : ∀ x ∈ na, x.2 ≠ k) :
    (((na.foldl (fun acc kk =>
      if kk ∈ (enqueue_event acc kk.2 et false (now - kk.1)).active
      then { enqueue_event acc kk.2 et false (now - kk.1) with
               assert_failed := true }
      else { enqueue_event acc kk.2 et false (now - kk.1) with
               active := (enqueue_event acc kk.2 et false (now - kk.1)).active
                 ++ [kk] }) s)).trace.filter
      (fun c => decide (c.1 = k))) =
      (s.trace.filter (fun c => decide (c.1 = k))) ∧
    (((na.foldl (fun acc kk =>
      if kk ∈ (enqueue_event acc kk.2 et false (now - kk.1)).active
      then { enqueue_event acc kk.2 et false (now - kk.1) with
               assert_failed := true }
      else { enqueue_event acc kk.2 et false (now - kk.1) with
               active := (enqueue_event acc kk.2 et false (now - kk.1)).active
                 ++ [kk] }) s)).event_queue.filter
      (fun q => decide (q.n = k))) =
      (s.event_queue.filter (fun q => decide (q.n = k))) := by
  induction na generalizing s with
  | nil => exact ⟨rfl, rfl⟩
  | cons x rest ih =>
    rw [List.foldl_cons]
    have hx : x.2 ≠ k := hna x (List.mem_cons_self x rest)
    have hrest : ∀ y ∈ rest, y.2 ≠ k :=
      fun y hy => hna y (List.mem_cons_of_mem x hy)
    obtain ⟨e1, e2⟩ := enqueue_kfilter s x.2 et false (now - x.1) k hx
    split_ifs with h
    · obtain ⟨i1, i2⟩ := ih
        { enqueue_event s x.2 et false (now - x.1) with
            assert_failed := true } hrest
      exact ⟨i1.trans e1, i2.trans e2⟩
    · obtain ⟨i1, i2⟩ := ih
        { enqueue_event s x.2 et false (now - x.1) with
            active := (enqueue_event s x.2 et false (now - x.1)).active
              ++ [x] } hrest
      exact ⟨i1.trans e1, i2.trans e2⟩

/-- `finish_events_forward` from an empty active set with no `k`-key newly
active dispatches nothing for definition `k`. -/
theorem finish_forward_kfilter (s : MetaState) (now : Int)
    (na : List ActiveKey) (k : Nat)
    (hact : s.active = []) (hna : ∀ x ∈ na, x.2 ≠ k) :
    ((finish_events_forward s now na).trace.filter
      (fun c => decide (c.1 = k))) =
      (s.trace.filter (fun c => decide (c.1 = k))) ∧
    ((finish_events_forward s now na).event_queue.filter
      (fun q => decide (q.n = k))) =
      (s.event_queue.filter (fun q => decide (q.n = k))) := by
  unfold finish_events_forward
  rw [hact]
  exact na_fold_kfilter na s now ET_init k hna

/-- Claim C3: during `initialize(t)`, a non-open-ended action definition
`k` whose compiled events (a begin/end pair, a single instant, or nothing)
all lie at or before the quantized `t` receives no callback at all: neither
the synchronous trace nor the deferred queue gains any entry for `k`. -/
theorem c3_skip_suppression (s : MetaState) (t : ℚ) (k : Nat) (bt et : Int)
    (hdef : target_action (recompute s).defs k = true)
    (hoe : target_open_ended (recompute s).defs k = false)
    (hsorted : (recompute s).events.Pairwise (fun a b => a.time ≤ b.time))
    (hpat : kok k bt et ((recompute s).events.filter
      (fun e => decide (e.n = k))) [])
    (hktime : ∀ e ∈ (recompute s).events, e.n = k →
      e.time ≤ double_to_int_time (recompute s).precision t) :
    ((initializeAt s t).trace.filter (fun c => decide (c.1 = k))) =
      ((recompute s).trace.filter (fun c => decide (c.1 = k))) ∧
    ((initializeAt s t).event_queue.filter (fun q => decide (q.n = k))) =
      ((recompute s).event_queue.filter (fun q => decide (q.n = k))) := by
  obtain ⟨a1, a2, a3, a4, a5⟩ := scan_forward_k_masked k bt et
    (({ recompute s with next_event_index := 0, active := [] }
      : MetaState).events)
    { recompute s with next_event_index := 0, active := [] } []
    (double_to_int_time (recompute s).precision t)
    hdef hoe rfl hsorted hktime hpat
  have hna : ∀ x ∈ (scan_forward
      { recompute s with next_event_index := 0, active := [] }
      (({ recompute s with next_event_index := 0, active := [] }
        : MetaState).events) true
      (double_to_int_time (recompute s).precision t) [] true).2.1,
      x.2 ≠ k := by
    intro x hx
    have := List.filter_eq_nil_iff.mp a3 x hx
    simpa using this
  obtain ⟨f1, f2⟩ := finish_forward_kfilter
    { (scan_forward
        { recompute s with next_event_index := 0, active := [] }
        (({ recompute s with next_event_index := 0, active := [] }
          : MetaState).events) true
        (double_to_int_time (recompute s).precision t) [] true).1 with
      next_event_index := (scan_forward
        { recompute s with next_event_index := 0, active := [] }
        (({ recompute s with next_event_index := 0, active := [] }
          : MetaState).events) true
        (double_to_int_time (recompute s).precision t) [] true).2.2 }
    (double_to_int_time (recompute s).precision t)
    (scan_forward
      { recompute s with next_event_index := 0, active := [] }
      (({ recompute s with next_event_index := 0, active := [] }
        : MetaState).events) true
      (double_to_int_time (recompute s).precision t) [] true).2.1
    k a1 hna
  exact ⟨f1.trans a4, f2.trans a5⟩

/-- Schedule with one non-open-ended native action of duration 2, used as
the C3 witness with `initialize(5)`. -/
def c3w : MetaState :=
  (add_c_interval (mkMeta 1) (some ⟨2, false⟩) 0 RS_level_begin).1

/-- Witness for claim C3 at a concrete schedule. -/
theorem c3_witness :
    (target_action (recompute c3w).defs 0 = true ∧
     target_open_ended (recompute c3w).defs 0 = false ∧
     (recompute c3w).events.Pairwise (fun a b => a.time ≤ b.time) ∧
     kok 0 0 2 ((recompute c3w).events.filter
       (fun e => decide (e.n = 0))) [] ∧
     (∀ e ∈ (recompute c3w).events, e.n = 0 →
       e.time ≤ double_to_int_time (recompute c3w).precision 5)) ∧
    (((initializeAt c3w 5).trace.filter (fun c => decide (c.1 = 0))) =
       ((recompute c3w).trace.filter (fun c => decide (c.1 = 0))) ∧
     ((initializeAt c3w 5).event_queue.filter
       (fun q => decide (q.n = 0))) =
       ((recompute c3w).event_queue.filter (fun q => decide (q.n = 0)))) :=
  ⟨⟨by decide, by decide, by decide, by unfold kok; decide, by decide⟩,
    c3_skip_suppression c3w 5 0 0 2 (by decide) (by decide) (by decide)
      (by unfold kok; decide) (by decide)⟩

end CMeta
